import Mathlib

/-! # Pyq: the paper extractor of `src/index.js`

A shallow embedding of the link extractor of the MathonGo papers bot
(`extractPapersFromHTML`, `createPaperObject`, `convertToDirectDownload`,
`extractYear`, `detectPaperType`, `cleanName`, `extractNameFromUrl`,
`groupByYear` and the filtering step of `scrapeMathonGo`).

JavaScript strings are embedded as lists of characters.  The regular
expressions of the source are values of a small regular-expression datatype
`Re`, run by a backtracking matcher that lists the possible matches in the
priority order of the ECMAScript matcher; the match a JavaScript engine
reports is the first one of that list.
-/

namespace Pyq

/-- A JavaScript string. -/
abbrev Str := List Char

/-! ## String primitives -/

/-- JavaScript `s.startsWith(p)`. -/
def startsWith (s p : Str) : Bool := p.isPrefixOf s

/-- JavaScript `s.includes(t)`: `t` occurs in `s` at some position. -/
def includes : Str → Str → Bool
  | [], t => t.isPrefixOf []
  | c :: s, t => t.isPrefixOf (c :: s) || includes s t

/-- Upper-case mapping restricted to the ASCII letters. -/
def asciiUpper (c : Char) : Char :=
  if 'a' ≤ c ∧ c ≤ 'z' then Char.ofNat (c.toNat - 32) else c

/-- Lower-case mapping restricted to the ASCII letters. -/
def asciiLower (c : Char) : Char :=
  if 'A' ≤ c ∧ c ≤ 'Z' then Char.ofNat (c.toNat + 32) else c

/-- The lower-case mapping of one character, as far as ASCII output is
concerned: besides the ASCII capitals, the only characters whose lower-case
form contains an ASCII letter are KELVIN SIGN (U+212A, to `k`) and LATIN
CAPITAL LETTER I WITH DOT ABOVE (U+0130, to `i` followed by U+0307).  Every
other character is kept as it is: its lower-case form is a non-empty run of
non-ASCII characters, and the source only ever tests the lowered text for
the presence of ASCII keywords. -/
def lowerChar (c : Char) : Str :=
  if c = Char.ofNat 0x212A then ['k']
  else if c = Char.ofNat 0x0130 then ['i', Char.ofNat 0x0307]
  else [asciiLower c]

/-- JavaScript `s.toLowerCase()`. -/
def toLowerCase (s : Str) : Str := s.flatMap lowerChar

/-- The characters matched by `\s`; `trim()` strips the same set. -/
def isSpace (c : Char) : Bool :=
  let n := c.toNat
  n = 9 || n = 10 || n = 11 || n = 12 || n = 13 || n = 32 || n = 0xA0 || n = 0x1680 ||
  (0x2000 ≤ n && n ≤ 0x200A) || n = 0x2028 || n = 0x2029 || n = 0x202F || n = 0x205F ||
  n = 0x3000 || n = 0xFEFF

/-- JavaScript `s.trim()`. -/
def trim (s : Str) : Str :=
  ((s.dropWhile isSpace).reverse.dropWhile isSpace).reverse

/-- JavaScript `s.split(sep)` for a one-character separator: always at least one part. -/
def splitOn (sep : Char) : Str → List Str
  | [] => [[]]
  | c :: s =>
    if c = sep then [] :: splitOn sep s
    else match splitOn sep s with
      | [] => [[c]]
      | p :: ps => (c :: p) :: ps

/-! ## Regular expressions -/

/-- The fragment of ECMAScript regular expressions used by the source:
character classes, greedy and lazy repetition of a class, sequence,
alternation, the empty pattern, capture groups and the end anchor `$`. -/
inductive Re where
  | cls (p : Char → Bool)
  | star (p : Char → Bool)
  | lazyStar (p : Char → Bool)
  | seq (a b : Re)
  | alt (a b : Re)
  | empty
  | group (i : Nat) (r : Re)
  | eos

/-- Capture groups recorded so far, most recent first. -/
abbrev Caps := List (Nat × Str)

/-- Capture `match[i]` for a group that took part in the match. -/
def cap (c : Caps) (i : Nat) : Str := (c.lookup i).getD []

/-- The inputs left after a greedy `class*`, longest run first. -/
def starRuns (p : Char → Bool) : Str → List Str
  | [] => [[]]
  | c :: s => if p c then starRuns p s ++ [c :: s] else [c :: s]

/-- The inputs left after a lazy `class*?`, shortest run first. -/
def lazyRuns (p : Char → Bool) : Str → List Str
  | [] => [[]]
  | c :: s => (c :: s) :: (if p c then lazyRuns p s else [])

namespace Re

/-- All ways of matching `r` at the start of the input, in the order in which
a backtracking matcher tries them; each comes with the remaining input. -/
def run : Re → Caps → Str → List (Caps × Str)
  | cls _, _, [] => []
  | cls p, c, a :: s => if p a then [(c, s)] else []
  | star p, c, s => (starRuns p s).map fun s' => (c, s')
  | lazyStar p, c, s => (lazyRuns p s).map fun s' => (c, s')
  | seq a b, c, s => (a.run c s).flatMap fun x => b.run x.1 x.2
  | alt a b, c, s => a.run c s ++ b.run c s
  | empty, c, s => [(c, s)]
  | group i r, c, s =>
    (r.run c s).map fun x => ((i, s.take (s.length - x.2.length)) :: x.1, x.2)
  | eos, c, s => if s.isEmpty then [(c, s)] else []

/-- The match of `r` anchored at the start of the input, if any. -/
def matchAt (r : Re) (s : Str) : Option (Caps × Str) := (r.run [] s).head?

/-- The leftmost match of `r` in `s`: the text before it, the captures and
the text after it. -/
def search (r : Re) : Str → Option (Str × Caps × Str)
  | [] => (r.matchAt []).map fun x => ([], x.1, x.2)
  | a :: s =>
    match r.matchAt (a :: s) with
    | some x => some ([], x.1, x.2)
    | none => (search r s).map fun x => (a :: x.1, x.2.1, x.2.2)

/-- The loop `while ((match = re.exec(html)) !== null) ...` of a global
regular expression, started on the text after `lastIndex`: the captures of
the successive matches.  Each turn spends one unit of fuel; `none` means the
fuel ran out. -/
def execLoop (r : Re) : Nat → Str → Option (List Caps)
  | 0, _ => none
  | fuel + 1, s =>
    match r.search s with
    | none => some []
    | some x => (execLoop r fuel x.2.2).map fun l => x.2.1 :: l

/-- JavaScript `s.replace(re, rep)` for a regular expression without the `g` flag. -/
def replaceFirst (r : Re) (rep : Str) (s : Str) : Str :=
  match r.search s with
  | none => s
  | some x => x.1 ++ rep ++ x.2.2

/-- The loop of `s.replace(re, rep)` for a global regular expression. -/
def replaceLoop (r : Re) (rep : Str) : Nat → Str → Str
  | 0, s => s
  | fuel + 1, s =>
    match r.search s with
    | none => s
    | some x =>
      if x.2.2.length + x.1.length < s.length then
        x.1 ++ rep ++ replaceLoop r rep fuel x.2.2
      else
        match x.2.2 with
        | [] => x.1 ++ rep
        | a :: t => x.1 ++ rep ++ a :: replaceLoop r rep fuel t

/-- JavaScript `s.replace(re, rep)` for a global regular expression: every match is
replaced, and the scan moves on by one character after an empty match. -/
def replaceAll (r : Re) (rep : Str) (s : Str) : Str := replaceLoop r rep (s.length + 1) s

/-- A sequence of patterns. -/
def seqs : List Re → Re
  | [] => empty
  | r :: rs => seq r (seqs rs)

/-- An alternation of patterns, tried from left to right. -/
def alts : List Re → Re
  | [] => cls fun _ => false
  | [r] => r
  | r :: rs => alt r (alts rs)

/-- A literal, compared exactly. -/
def lit (s : String) : Re := seqs (s.toList.map fun a => cls fun c => c == a)

/-- A literal under the `i` flag: an ASCII letter matches in either case. -/
def litI (s : String) : Re :=
  seqs (s.toList.map fun a => cls fun c => asciiUpper c == asciiUpper a)

/-- A greedy `class+`. -/
def plus (p : Char → Bool) : Re := seq (cls p) (star p)

/-- A greedy `(?:r)?`. -/
def opt (r : Re) : Re := alt r empty

/-- The least number of characters a match of the pattern consumes. -/
def minLen : Re → Nat
  | cls _ => 1
  | star _ => 0
  | lazyStar _ => 0
  | seq a b => a.minLen + b.minLen
  | alt a b => min a.minLen b.minLen
  | empty => 0
  | group _ r => r.minLen
  | eos => 0

end Re

/-! ## Character classes and patterns of the source -/

/-- The double quote. -/
def dq : Char := Char.ofNat 34

/-- The single quote. -/
def sq : Char := Char.ofNat 39

/-- The class `["']`. -/
def isQuote (c : Char) : Bool := c == dq || c == sq

/-- The class `[^"']`. -/
def notQuote (c : Char) : Bool := !(c == dq || c == sq)

/-- The class `[^"]`. -/
def notDq (c : Char) : Bool := !(c == dq)

/-- The class `[^>]`. -/
def notGt (c : Char) : Bool := !(c == '>')

/-- The class `[^<]`. -/
def notLt (c : Char) : Bool := !(c == '<')

/-- The class `[\s\S]`. -/
def anyChar (_ : Char) : Bool := true

/-- The class `[a-zA-Z0-9_-]`. -/
def isIdChar (c : Char) : Bool :=
  ('a' ≤ c && c ≤ 'z') || ('A' ≤ c && c ≤ 'Z') || ('0' ≤ c && c ≤ '9') || c == '_' || c == '-'

open Re in
/-- Pattern `/href=["'](https:\/\/drive\.google\.com\/[^"']+)["'][^>]*>([^<]*)/gi` -/
def drivePattern : Re :=
  seqs [litI "href=", cls isQuote,
    group 1 (seqs [litI "https://drive.google.com/", plus notQuote]),
    cls isQuote, star notGt, litI ">", group 2 (star notLt)]

open Re in
/-- Pattern `/href=["'](https?:\/\/[^"']+\.pdf[^"']*)["'][^>]*>([^<]*)/gi` -/
def pdfPattern : Re :=
  seqs [litI "href=", cls isQuote,
    group 1 (seqs [litI "http", opt (litI "s"), litI "://", plus notQuote, litI ".pdf",
      star notQuote]),
    cls isQuote, star notGt, litI ">", group 2 (star notLt)]

open Re in
/-- Pattern `/href=["'](https?:\/\/[^"']*(?:cdn|storage|assets)[^"']*\.pdf[^"']*)["']/gi` -/
def cdnPattern : Re :=
  seqs [litI "href=", cls isQuote,
    group 1 (seqs [litI "http", opt (litI "s"), litI "://", star notQuote,
      alts [litI "cdn", litI "storage", litI "assets"], star notQuote, litI ".pdf",
      star notQuote]),
    cls isQuote]

open Re in
/-- Pattern `/<a[^>]+href=["']([^"']+)["'][^>]*download[^>]*>([^<]*)/gi` -/
def downloadPattern : Re :=
  seqs [litI "<a", plus notGt, litI "href=", cls isQuote, group 1 (plus notQuote),
    cls isQuote, star notGt, litI "download", star notGt, litI ">", group 2 (star notLt)]

open Re in
/-- Pattern `/data-(?:url|href|pdf|link)=["']([^"']+\.pdf[^"']*)["']/gi` -/
def dataPattern : Re :=
  seqs [litI "data-", alts [litI "url", litI "href", litI "pdf", litI "link"], litI "=",
    cls isQuote, group 1 (seqs [plus notQuote, litI ".pdf", star notQuote]), cls isQuote]

open Re in
/-- Pattern `/"url"\s*:\s*"([^"]+\.pdf[^"]*)"/gi` -/
def jsonUrlPattern : Re :=
  seqs [cls (· == dq), litI "url", cls (· == dq), star isSpace, litI ":", star isSpace,
    cls (· == dq), group 1 (seqs [plus notDq, litI ".pdf", star notDq]), cls (· == dq)]

open Re in
/-- Pattern `/"pdf(?:Url|Link)?"\s*:\s*"([^"]+)"/gi` -/
def jsonPdfPattern : Re :=
  seqs [cls (· == dq), litI "pdf", opt (alts [litI "Url", litI "Link"]), cls (· == dq),
    star isSpace, litI ":", star isSpace, cls (· == dq), group 1 (plus notDq), cls (· == dq)]

open Re in
/-- Pattern `/"download(?:Url|Link)?"\s*:\s*"([^"]+)"/gi` -/
def jsonDownloadPattern : Re :=
  seqs [cls (· == dq), litI "download", opt (alts [litI "Url", litI "Link"]), cls (· == dq),
    star isSpace, litI ":", star isSpace, cls (· == dq), group 1 (plus notDq), cls (· == dq)]

/-- The array `jsonPatterns`. -/
def jsonPatterns : List Re := [jsonUrlPattern, jsonPdfPattern, jsonDownloadPattern]

open Re in
/-- The listing pattern
`/<(?:div|li|a)[^>]*class=["'][^"']*(?:paper|download|pdf)[^"']*["'][^>]*>[\s\S]*?href=["']([^"']+)["'][^>]*>([\s\S]*?)<\/(?:div|li|a)>/gi` -/
def listingPattern : Re :=
  seqs [litI "<", alts [litI "div", litI "li", litI "a"], star notGt, litI "class=",
    cls isQuote, star notQuote, alts [litI "paper", litI "download", litI "pdf"],
    star notQuote, cls isQuote, star notGt, litI ">", lazyStar anyChar, litI "href=",
    cls isQuote, group 1 (plus notQuote), cls isQuote, star notGt, litI ">",
    group 2 (lazyStar anyChar), litI "</", alts [litI "div", litI "li", litI "a"], litI ">"]

open Re in
/-- Pattern `/<a[^>]+href=["']([^"']+)["'][^>]*>([\s\S]*?)<\/a>/gi` -/
def anyLinkPattern : Re :=
  seqs [litI "<a", plus notGt, litI "href=", cls isQuote, group 1 (plus notQuote),
    cls isQuote, star notGt, litI ">", group 2 (lazyStar anyChar), litI "</a>"]

open Re in
/-- Pattern `/<[^>]+>/g` -/
def tagPattern : Re := seqs [lit "<", plus notGt, lit ">"]

open Re in
/-- Pattern `/\s+/g` -/
def spacesPattern : Re := plus isSpace

open Re in
/-- Pattern `/20[1-2][0-9]/`, with the whole match recorded as group 0. -/
def yearPattern : Re :=
  group 0 (seqs [lit "20", cls (fun c => '1' ≤ c && c ≤ '2'), cls (fun c => '0' ≤ c && c ≤ '9')])

open Re in
/-- Pattern `/\/file\/d\/([a-zA-Z0-9_-]+)/` -/
def fileIdPattern : Re := seqs [lit "/file/d/", group 1 (plus isIdChar)]

open Re in
/-- Pattern `/[?&]id=([a-zA-Z0-9_-]+)/` -/
def idParamPattern : Re :=
  seqs [cls (fun c => c == '?' || c == '&'), lit "id=", group 1 (plus isIdChar)]

open Re in
/-- Pattern `/\/open\?id=([a-zA-Z0-9_-]+)/` -/
def openIdPattern : Re := seqs [lit "/open?id=", group 1 (plus isIdChar)]

/-! ## Paper records -/

/-- The object built by `createPaperObject`. -/
structure Paper where
  name : Str
  url : Str
  directUrl : Str
  year : Str
  type : Str
  deriving DecidableEq, Repr

/-- `const MATHONGO_BASE = "https://www.mathongo.com"`. -/
def MATHONGO_BASE : Str := "https://www.mathongo.com".toList

/-- The operator `a || b` on a string-or-null left operand: `null` and the
empty string are falsy. -/
def orElse (a : Option Str) (b : Option Str) : Option Str :=
  match a with
  | some (c :: s) => some (c :: s)
  | _ => b

/-- Extract year from text. -/
def extractYear (text : Str) : Option Str :=
  if text.isEmpty then none
  else (yearPattern.search text).map fun x => cap x.2.1 0

/-- Detect if paper is question or solution. -/
def detectPaperType (name url : Str) : Str :=
  let text := toLowerCase (name ++ " ".toList ++ url)
  if includes text "solution".toList || includes text "answer".toList ||
      includes text "key".toList then "solution".toList
  else "question".toList

/-- Convert various sharing links to direct download. -/
def convertToDirectDownload (url : Str) : Str :=
  let drive : Option Str :=
    if includes url "drive.google.com".toList then
      let fileId : Option Str := none
      let fileId := match fileIdPattern.search url with
        | some x => some (cap x.2.1 1)
        | none => fileId
      let fileId := match idParamPattern.search url with
        | some x => some (cap x.2.1 1)
        | none => fileId
      let fileId := match openIdPattern.search url with
        | some x => some (cap x.2.1 1)
        | none => fileId
      match fileId with
      | some (c :: s) => some ("https://drive.google.com/uc?export=download&id=".toList ++ c :: s)
      | _ => none
    else none
  match drive with
  | some r => r
  | none =>
    if includes url "dropbox.com".toList then
      (Re.lit "?dl=0").replaceFirst "?dl=1".toList
        ((Re.lit "dl=0").replaceFirst "dl=1".toList url)
    else if includes url "1drv.ms".toList || includes url "onedrive".toList then
      (Re.lit "redir").replaceFirst "download".toList url
    else url

/-- Create paper object with processed URLs. -/
def createPaperObject (url name : Str) : Paper :=
  let year := match orElse (extractYear name) (extractYear url) with
    | some (c :: s) => c :: s
    | _ => "Other".toList
  { name := if name.isEmpty then "JEE Paper".toList else name
    url := url
    directUrl := convertToDirectDownload url
    year := year
    type := detectPaperType name url }

/-- Clean paper name. -/
def cleanName (name : Str) : Str :=
  if name.isEmpty then []
  else trim (spacesPattern.replaceAll " ".toList (tagPattern.replaceAll [] name))

/-! ## Names derived from URLs -/

/-- The value of a hexadecimal digit. -/
def hexVal (c : Char) : Option Nat :=
  if '0' ≤ c ∧ c ≤ '9' then some (c.toNat - 48)
  else if 'a' ≤ c ∧ c ≤ 'f' then some (c.toNat - 87)
  else if 'A' ≤ c ∧ c ≤ 'F' then some (c.toNat - 55)
  else none

/-- The units of a percent-encoded string: plain characters (`inl`) and
escaped bytes `%XX` (`inr`); `none` when a `%` is not followed by two
hexadecimal digits. -/
def pctUnits : Str → Option (List (Char ⊕ Nat))
  | [] => some []
  | c :: s =>
    if c = '%' then
      match s with
      | a :: b :: t =>
        match hexVal a, hexVal b, pctUnits t with
        | some h, some l, some r => some (Sum.inr (16 * h + l) :: r)
        | _, _, _ => none
      | _ => none
    else (pctUnits s).map fun r => Sum.inl c :: r

/-- A UTF-8 continuation byte. -/
def isCont (b : Nat) : Bool := 0x80 ≤ b && b ≤ 0xBF

/-- The text denoted by a list of units: escaped bytes must form well-formed
UTF-8 (no stray continuation byte, no overlong form, no surrogate, nothing
above U+10FFFF); `none` otherwise. -/
def utf8Units : List (Char ⊕ Nat) → Option Str
  | [] => some []
  | Sum.inl c :: r => (utf8Units r).map fun t => c :: t
  | Sum.inr b :: r =>
    if b < 0x80 then (utf8Units r).map fun t => Char.ofNat b :: t
    else if 0xC0 ≤ b ∧ b < 0xE0 then
      match r with
      | Sum.inr b1 :: r1 =>
        let v := (b - 0xC0) * 64 + (b1 - 0x80)
        if isCont b1 ∧ 0x80 ≤ v then (utf8Units r1).map fun t => Char.ofNat v :: t else none
      | _ => none
    else if 0xE0 ≤ b ∧ b < 0xF0 then
      match r with
      | Sum.inr b1 :: Sum.inr b2 :: r2 =>
        let v := (b - 0xE0) * 4096 + (b1 - 0x80) * 64 + (b2 - 0x80)
        if isCont b1 ∧ isCont b2 ∧ 0x800 ≤ v ∧ ¬ (0xD800 ≤ v ∧ v ≤ 0xDFFF) then
          (utf8Units r2).map fun t => Char.ofNat v :: t
        else none
      | _ => none
    else if 0xF0 ≤ b ∧ b < 0xF8 then
      match r with
      | Sum.inr b1 :: Sum.inr b2 :: Sum.inr b3 :: r3 =>
        let v := (b - 0xF0) * 262144 + (b1 - 0x80) * 4096 + (b2 - 0x80) * 64 + (b3 - 0x80)
        if isCont b1 ∧ isCont b2 ∧ isCont b3 ∧ 0x10000 ≤ v ∧ v ≤ 0x10FFFF then
          (utf8Units r3).map fun t => Char.ofNat v :: t
        else none
      | _ => none
    else none

/-- The function `decodeURIComponent`; `none` stands for the `URIError` it
throws on a malformed escape sequence. -/
def decodeURIComponent (s : Str) : Option Str := (pctUnits s).bind utf8Units

open Re in
/-- Pattern `/[_-]/g` -/
def dashPattern : Re := cls fun c => c == '_' || c == '-'

open Re in
/-- Pattern `/\.pdf$/i` -/
def pdfSuffixPattern : Re := seqs [litI ".pdf", eos]

/-- The value `a || b || ""` of strings that may be `undefined`. -/
def firstTruthy (a b : Option Str) : Str :=
  match orElse a b with
  | some s => s
  | none => []

/-- Extract name from URL. -/
def extractNameFromUrl (url : Str) : Str :=
  let parts := (splitOn '/' url).reverse
  let filename := firstTruthy parts.head? parts.tail.head?
  let filename := ((splitOn '?' filename).head?).getD []
  match decodeURIComponent filename with
  | none => "JEE Paper".toList
  | some filename =>
    let filename := pdfSuffixPattern.replaceFirst [] (dashPattern.replaceAll " ".toList filename)
    if filename.isEmpty then "JEE Paper".toList else filename

/-! ## The extractor -/

/-- The local state of `extractPapersFromHTML`: the array `papers` and the
set `seenUrls` (in insertion order). -/
structure St where
  papers : List Paper
  seenUrls : List Str
  deriving DecidableEq, Repr

/-- The statements `seenUrls.add(key); papers.push(createPaperObject(url, name))`. -/
def St.push (st : St) (key url name : Str) : St :=
  { papers := st.papers ++ [createPaperObject url name]
    seenUrls := if st.seenUrls.contains key then st.seenUrls else st.seenUrls ++ [key] }

/-- The expression `u.startsWith("http") ? u : MATHONGO_BASE + u`. -/
def resolve (u : Str) : Str := if startsWith u "http".toList then u else MATHONGO_BASE ++ u

/-- Body of the loops of patterns 1 and 2. -/
def namedStep (st : St) (m : Caps) : St :=
  let url := cap m 1
  let name := cleanName (cap m 2)
  if !st.seenUrls.contains url && !name.isEmpty then st.push url url name else st

/-- Body of the loop of pattern 3. -/
def cdnStep (st : St) (m : Caps) : St :=
  let url := cap m 1
  if !st.seenUrls.contains url then st.push url url (extractNameFromUrl url) else st

/-- Body of the loop of pattern 4. -/
def downloadStep (st : St) (m : Caps) : St :=
  let url := resolve (cap m 1)
  let name := cleanName (cap m 2)
  if !st.seenUrls.contains url && !name.isEmpty then st.push url url name else st

/-- Body of the loop of pattern 5. -/
def dataStep (st : St) (m : Caps) : St :=
  let url := resolve (cap m 1)
  if !st.seenUrls.contains url then st.push url url (extractNameFromUrl url) else st

/-- Body of the loops of pattern 6. -/
def jsonStep (st : St) (m : Caps) : St :=
  let url := (Re.cls fun c => c == Char.ofNat 92).replaceAll [] (cap m 1)
  let url := if !startsWith url "http".toList then MATHONGO_BASE ++ url else url
  if !st.seenUrls.contains url then st.push url url (extractNameFromUrl url) else st

/-- Body of the loop of pattern 7. -/
def listingStep (st : St) (m : Caps) : St :=
  let url := cap m 1
  let url := if !startsWith url "http".toList then MATHONGO_BASE ++ url else url
  let name := cleanName (tagPattern.replaceAll [] (cap m 2))
  if !st.seenUrls.contains url && !name.isEmpty &&
      (includes url "pdf".toList || includes url "drive".toList) then st.push url url name
  else st

/-- Body of the loop of the last pass ("try to find any relevant links"). -/
def fallbackStep (st : St) (m : Caps) : St :=
  let url := cap m 1
  let text := toLowerCase (trim (tagPattern.replaceAll [] (cap m 2)))
  if (includes text "paper".toList || includes text "question".toList ||
      includes text "solution".toList || includes text "download".toList ||
      includes text "pdf".toList || includes text "pyq".toList) &&
      !st.seenUrls.contains url then
    st.push url (resolve url) (cleanName (tagPattern.replaceAll [] (cap m 2)))
  else st

/-- One `while ((match = pattern.exec(html)) !== null) body` loop. -/
def pass (r : Re) (body : St → Caps → St) (fuel : Nat) (html : Str) (st : St) : Option St :=
  (r.execLoop fuel html).map fun ms => ms.foldl body st

/-- The loop `for (const pattern of jsonPatterns)`. -/
def jsonPasses (fuel : Nat) (html : Str) : List Re → St → Option St
  | [], st => some st
  | r :: rs, st => (pass r jsonStep fuel html st).bind (jsonPasses fuel html rs)

/-- Patterns 1 to 7 of `extractPapersFromHTML`, from the empty state. -/
def mainPasses (fuel : Nat) (html : Str) : Option St :=
  (((((pass drivePattern namedStep fuel html ⟨[], []⟩).bind
    (pass pdfPattern namedStep fuel html)).bind
    (pass cdnPattern cdnStep fuel html)).bind
    (pass downloadPattern downloadStep fuel html)).bind
    (pass dataPattern dataStep fuel html)).bind fun st =>
    (jsonPasses fuel html jsonPatterns st).bind
    (pass listingPattern listingStep fuel html)

/-- The last pass of `extractPapersFromHTML`, inside `if (papers.length === 0)`. -/
def fallbackPass (fuel : Nat) (html : Str) (st : St) : Option St :=
  pass anyLinkPattern fallbackStep fuel html st

/-- Extract paper links from HTML.  Every `exec` loop gets `fuel` turns;
`none` means that one of them did not finish within them. -/
def extractPapersFromHTML (fuel : Nat) (html : Str) : Option (List Paper) :=
  (mainPasses fuel html).bind fun st =>
    if st.papers.length = 0 then (fallbackPass fuel html st).map fun st' => st'.papers
    else some st.papers

/-- The filtering step of `scrapeMathonGo`, applied to the extracted papers;
`filterYear` is `none` for `null`. -/
def filterPapers (filterYear : Option Str) (extractedPapers : List Paper) : List Paper :=
  extractedPapers.foldl
    (fun papers paper =>
      match filterYear with
      | some (c :: f) =>
        if paper.year = c :: f || includes paper.name (c :: f) then papers ++ [paper] else papers
      | _ => papers ++ [paper])
    []

/-! ## Grouping by year -/

/-- A JavaScript object whose values are arrays of papers: its own
properties, in creation order. -/
abbrev Obj := List (Str × List Paper)

/-- The value of a property key that is an array index (a canonical numeric
string below `2^32 - 1`), as used by the ordering of own property keys. -/
def arrayIndex (k : Str) : Option Nat :=
  let v := k.foldl (fun n c => 10 * n + (c.toNat - 48)) 0
  match k with
  | [] => none
  | c :: t =>
    if k.all (fun d => '0' ≤ d && d ≤ '9') && (c != '0' || t.isEmpty) && v < 2 ^ 32 - 1 then some v
    else none

/-- The names that every object inherits from `Object.prototype`. -/
def protoKeys : List Str :=
  ["constructor", "__defineGetter__", "__defineSetter__", "hasOwnProperty",
    "__lookupGetter__", "__lookupSetter__", "isPrototypeOf", "propertyIsEnumerable",
    "toString", "valueOf", "__proto__", "toLocaleString"].map String.toList

/-- The assignment `o[k] = v`: an existing property keeps its place, a new one
is created last. -/
def Obj.set : Obj → Str → List Paper → Obj
  | [], k, v => [(k, v)]
  | (k', v') :: o, k, v => if k' = k then (k', v) :: o else (k', v') :: Obj.set o k v

/-- The own property `o[k]`, if there is one. -/
def Obj.get (o : Obj) (k : Str) : Option (List Paper) := o.lookup k

/-- The entries `Object.entries(o)`, in the order of the own property keys: array
indices in ascending numeric order, then the other keys in creation order. -/
def Obj.entries (o : Obj) : List (Str × List Paper) :=
  (o.filter fun e => (arrayIndex e.1).isSome).insertionSort
      (fun a b => (arrayIndex a.1).getD 0 ≤ (arrayIndex b.1).getD 0) ++
    o.filter fun e => (arrayIndex e.1).isNone

/-- The keys `Object.keys(o)`. -/
def Obj.keys (o : Obj) : List Str := o.entries.map Prod.fst

/-- Body of `papers.forEach` in `groupByYear`; `none` stands for the
`TypeError` raised when `grouped[year]` is an inherited property, which has no
`push`. -/
def groupStep (grouped : Option Obj) (paper : Paper) : Option Obj :=
  grouped.bind fun g =>
    let year := if paper.year.isEmpty then "Other".toList else paper.year
    if protoKeys.contains year then none
    else match g.get year with
      | none => some (g.set year [paper])
      | some l => some (g.set year (l ++ [paper]))

/-- Group papers by year.  The parameter `localeCompare` is the collation of
the host, `a.localeCompare(b)`; the sort is the stable sort by the comparator
`(a, b) => b.localeCompare(a)`. -/
def groupByYear (localeCompare : Str → Str → Int) (papers : List Paper) : Option Obj :=
  (papers.foldl groupStep (some [])).map fun grouped =>
    ((grouped.keys).insertionSort fun a b => localeCompare b a ≤ 0).foldl
      (fun sorted key => sorted.set key ((grouped.get key).getD [])) []

/-- The years in the order in which `handleGetPapers` sends them:
the keys of `Object.entries(groupByYear(papers))`. -/
def sentYears (localeCompare : Str → Str → Int) (papers : List Paper) : Option (List Str) :=
  (groupByYear localeCompare papers).map fun sorted => sorted.entries.map Prod.fst

/-! ## Specification-side definitions and sample inputs -/

/-- The patterns of all the passes of `extractPapersFromHTML`. -/
def allPatterns : List Re :=
  [drivePattern, pdfPattern, cdnPattern, downloadPattern, dataPattern] ++ jsonPatterns ++
    [listingPattern, anyLinkPattern]

/-- The set of seen URLs is empty as long as no paper was pushed. -/
def St.Fresh (st : St) : Prop := st.papers = [] → st.seenUrls = []

/-- The URLs of the papers are exactly the seen URLs, each once. -/
def St.Distinct (st : St) : Prop :=
  st.papers.map Paper.url = st.seenUrls ∧ st.seenUrls.Nodup

/-- A 4-character text matching `20[1-2][0-9]`. -/
def isYearText : Str → Bool
  | [a, b, c, d] => a == '2' && b == '0' && (c == '1' || c == '2') && ('0' ≤ d && d ≤ '9')
  | _ => false

/-- `y` is the leftmost substring of `s` that is a year text. -/
def LeftmostYearIn (s y : Str) : Prop :=
  ∃ pre post, s = pre ++ y ++ post ∧ isYearText y = true ∧
    ∀ pre' y' post', s = pre' ++ y' ++ post' → isYearText y' = true → pre.length ≤ pre'.length

/-- No substring of `s` is a year text. -/
def HasNoYear (s : Str) : Prop :=
  ∀ pre y post, s = pre ++ y ++ post → isYearText y = false

/-- The strings "2010" to "2029". -/
def yearTexts : List Str :=
  ["2010", "2011", "2012", "2013", "2014", "2015", "2016", "2017", "2018", "2019",
    "2020", "2021", "2022", "2023", "2024", "2025", "2026", "2027", "2028", "2029"].map
    String.toList

/-- Two papers in extraction order, the later year first. -/
def twoYearPapers : List Paper :=
  [createPaperObject "https://x.org/a.pdf".toList "JEE Main 2024".toList,
    createPaperObject "https://x.org/b.pdf".toList "JEE Main 2023".toList]

/-- A page with a relative and an absolute link to the same paper, and
nothing that patterns 1 to 7 match. -/
def dupHtml : Str :=
  "<a href='/x'>paper</a><a href='https://www.mathongo.com/x'>paper</a>".toList

/-- The host of a URL in the words of the specification: the part between
"://" and the next "/", "?" or "#". -/
def hostOf (url : Str) : Str :=
  match (Re.lit "://").search url with
  | some x => x.2.2.takeWhile fun c => !(c == '/' || c == '?' || c == '#')
  | none => []

/-- The host names one of the known file-sharing providers. -/
def isProviderHost (host : Str) : Bool :=
  includes host "drive.google.com".toList || includes host "dropbox.com".toList ||
    includes host "1drv.ms".toList || includes host "onedrive".toList

/-- A Drive link with a file id in its path and another one in its query. -/
def driveBothUrl : Str := "https://drive.google.com/file/d/ABC/view?usp=sharing&id=XYZ".toList

/-- A Drive folder link, without any file id, that mentions Dropbox in its query. -/
def driveFolderUrl : Str := "https://drive.google.com/drive/folders/x?ref=dropbox.com&dl=0".toList

/-- A link on another host that mentions Dropbox in its query. -/
def otherHostUrl : Str := "https://example.com/a?ref=dropbox.com&dl=0".toList

/-- A Dropbox link in which `dl=0` occurs twice. -/
def dropboxTwiceUrl : Str := "https://www.dropbox.com/s/a?x=dl=0&dl=0".toList

/-- Two characters are the same ignoring case: their lower-case forms coincide. -/
def sameIgnoringCase (c d : Char) : Bool := lowerChar c == lowerChar d

/-- The word `kw` occurs in `s` ignoring case: some substring of `s` agrees
with `kw` character by character, ignoring case. -/
def ContainsIgnoringCase (s kw : Str) : Prop :=
  ∃ pre w post, s = pre ++ w ++ post ∧ List.Forall₂ (fun c k => sameIgnoringCase c k = true) w kw

/-- The keywords that mark a solution. -/
def solutionKeywords : List Str := ["solution", "answer", "key"].map String.toList

/-- A word for which containment in a lowered text can be read character by
character: lower-case already, without blank or combining dot, not empty and
not ending in `i`. -/
def PlainWord (kw : Str) : Prop :=
  (∀ k ∈ kw, lowerChar k = [k] ∧ k ≠ ' ' ∧ k ≠ Char.ofNat 0x0307) ∧ kw ≠ [] ∧
    kw.getLast? ≠ some 'i'

/-! ## Lemmas and theorems -/

open Re

/-! ### Substrings -/

theorem includes_iff (s t : Str) : includes s t = true ↔ t <:+: s := by
  induction s with
  | nil => simp [includes]
  | cons c s ih => simp [includes, ih, List.infix_cons_iff]

theorem includes_nil (s : Str) : includes s [] = true := by
  cases s <;> simp [includes]

/-! ### The matcher consumes input -/

/-- A greedy run leaves a suffix of the input. -/
theorem starRuns_suffix (p : Char → Bool) (s t : Str) (h : t ∈ starRuns p s) : t <:+ s := by
  induction s with
  | nil => simp [starRuns] at h; simp [h]
  | cons c s ih =>
    simp only [starRuns] at h
    split at h
    · rcases List.mem_append.1 h with h | h
      · exact (ih h).trans (List.suffix_cons c s)
      · simp at h; simp [h]
    · simp at h; simp [h]

theorem lazyRuns_suffix (p : Char → Bool) (s t : Str) (h : t ∈ lazyRuns p s) : t <:+ s := by
  induction s with
  | nil => simp [lazyRuns] at h; simp [h]
  | cons c s ih =>
    simp only [lazyRuns, List.mem_cons] at h
    rcases h with h | h
    · simp [h]
    · split at h
      · exact (ih h).trans (List.suffix_cons c s)
      · simp at h

theorem run_suffix (r : Re) : ∀ (c : Caps) (s : Str) (x : Caps × Str), x ∈ r.run c s → x.2 <:+ s := by
  induction r with
  | cls p =>
    intro c s x h
    cases s with
    | nil => simp [run] at h
    | cons a s =>
      simp only [run] at h
      split at h
      · simp at h; subst h; exact List.suffix_cons a s
      · simp at h
  | star p =>
    intro c s x h
    simp only [run, List.mem_map] at h
    obtain ⟨t, ht, rfl⟩ := h
    exact starRuns_suffix p s t ht
  | lazyStar p =>
    intro c s x h
    simp only [run, List.mem_map] at h
    obtain ⟨t, ht, rfl⟩ := h
    exact lazyRuns_suffix p s t ht
  | seq a b iha ihb =>
    intro c s x h
    simp only [run, List.mem_flatMap] at h
    obtain ⟨y, hy, hx⟩ := h
    exact (ihb _ _ _ hx).trans (iha _ _ _ hy)
  | alt a b iha ihb =>
    intro c s x h
    simp only [run, List.mem_append] at h
    rcases h with h | h
    · exact iha _ _ _ h
    · exact ihb _ _ _ h
  | empty =>
    intro c s x h
    simp [run] at h; subst h; exact List.suffix_refl s
  | group i r ih =>
    intro c s x h
    simp only [run, List.mem_map] at h
    obtain ⟨y, hy, rfl⟩ := h
    exact ih c s y hy
  | eos =>
    intro c s x h
    simp only [run] at h
    split at h
    · simp at h; subst h; exact List.suffix_refl s
    · simp at h

theorem run_minLen (r : Re) :
    ∀ (c : Caps) (s : Str) (x : Caps × Str), x ∈ r.run c s → x.2.length + r.minLen ≤ s.length := by
  induction r with
  | cls p =>
    intro c s x h
    cases s with
    | nil => simp [run] at h
    | cons a s =>
      simp only [run] at h
      split at h
      · simp at h; subst h; simp [minLen]
      · simp at h
  | star p =>
    intro c s x h
    simpa [minLen] using (run_suffix (star p) c s x h).length_le
  | lazyStar p =>
    intro c s x h
    simpa [minLen] using (run_suffix (lazyStar p) c s x h).length_le
  | seq a b iha ihb =>
    intro c s x h
    simp only [run, List.mem_flatMap] at h
    obtain ⟨y, hy, hx⟩ := h
    have h1 := iha _ _ _ hy
    have h2 := ihb _ _ _ hx
    simp only [minLen]; omega
  | alt a b iha ihb =>
    intro c s x h
    simp only [run, List.mem_append] at h
    simp only [minLen]
    rcases h with h | h
    · have := iha _ _ _ h; omega
    · have := ihb _ _ _ h; omega
  | empty =>
    intro c s x h
    simp [run] at h; subst h; simp [minLen]
  | group i r ih =>
    intro c s x h
    simp only [run, List.mem_map] at h
    obtain ⟨y, hy, rfl⟩ := h
    simpa [minLen] using ih c s y hy
  | eos =>
    intro c s x h
    simpa [minLen] using (run_suffix eos c s x h).length_le

theorem matchAt_minLen (r : Re) (s : Str) (x : Caps × Str) (h : r.matchAt s = some x) :
    x.2.length + r.minLen ≤ s.length :=
  run_minLen r [] s x (List.mem_of_mem_head? h)

theorem search_length (r : Re) : ∀ (s : Str) (x : Str × Caps × Str), r.search s = some x →
    x.1.length + r.minLen + x.2.2.length ≤ s.length := by
  intro s
  induction s with
  | nil =>
    intro x h
    simp only [search, Option.map_eq_some'] at h
    obtain ⟨y, hy, rfl⟩ := h
    have := matchAt_minLen r [] y hy
    simp only [List.length_nil] at this ⊢; omega
  | cons a s ih =>
    intro x h
    simp only [search] at h
    split at h
    · rename_i y hy
      cases h
      have := matchAt_minLen r (a :: s) y hy
      simp only [List.length_cons, List.length_nil] at this ⊢; omega
    · simp only [Option.map_eq_some'] at h
      obtain ⟨y, hy, rfl⟩ := h
      have := ih y hy
      simp only [List.length_cons] at this ⊢; omega

/-! ### Termination of the `exec` loops -/

theorem execLoop_fuel (r : Re) (hr : 0 < r.minLen) : ∀ (f1 f2 : Nat) (s : Str),
    s.length < f1 → s.length < f2 → r.execLoop f1 s = r.execLoop f2 s := by
  intro f1
  induction f1 with
  | zero => intro f2 s h; exact absurd h (Nat.not_lt_zero _)
  | succ f1 ih =>
    intro f2 s h1 h2
    cases f2 with
    | zero => omega
    | succ f2 =>
      simp only [execLoop]
      cases hs : r.search s with
      | none => rfl
      | some x =>
        have := search_length r s x hs
        simp only
        rw [ih f2 x.2.2 (by omega) (by omega)]

theorem execLoop_isSome (r : Re) (hr : 0 < r.minLen) : ∀ (f : Nat) (s : Str),
    s.length < f → ∃ l, r.execLoop f s = some l := by
  intro f
  induction f with
  | zero => intro s h; exact absurd h (Nat.not_lt_zero _)
  | succ f ih =>
    intro s h
    simp only [execLoop]
    cases hs : r.search s with
    | none => exact ⟨[], rfl⟩
    | some x =>
      have := search_length r s x hs
      obtain ⟨l, hl⟩ := ih x.2.2 (by omega)
      exact ⟨x.2.1 :: l, by simp [hl]⟩

/-! ### The leftmost match -/

theorem search_none (r : Re) : ∀ (s : Str), r.search s = none →
    ∀ pre t, s = pre ++ t → r.matchAt t = none := by
  intro s
  induction s with
  | nil =>
    intro h pre t e
    simp only [search, Option.map_eq_none'] at h
    have : pre = [] ∧ t = [] := by simpa using e.symm
    rw [this.2]; exact h
  | cons a s ih =>
    intro h pre t e
    simp only [search] at h
    split at h
    · simp at h
    · rename_i hm
      simp only [Option.map_eq_none'] at h
      cases pre with
      | nil => simp at e; rw [← e]; exact hm
      | cons b pre =>
        simp at e
        exact ih h pre t e.2

theorem search_some (r : Re) : ∀ (s : Str) (x : Str × Caps × Str), r.search s = some x →
    ∃ t, s = x.1 ++ t ∧ r.matchAt t = some (x.2.1, x.2.2) ∧
      ∀ pre t', s = pre ++ t' → pre.length < x.1.length → r.matchAt t' = none := by
  intro s
  induction s with
  | nil =>
    intro x h
    simp only [search, Option.map_eq_some'] at h
    obtain ⟨y, hy, rfl⟩ := h
    exact ⟨[], rfl, hy, fun pre t' _ hl => by simp at hl⟩
  | cons a s ih =>
    intro x h
    simp only [search] at h
    split at h
    · rename_i y hy
      cases h
      exact ⟨a :: s, rfl, hy, fun pre t' _ hl => by simp at hl⟩
    · rename_i hm
      simp only [Option.map_eq_some'] at h
      obtain ⟨y, hy, rfl⟩ := h
      obtain ⟨t, e, hmt, hmin⟩ := ih y hy
      refine ⟨t, by simp [e], hmt, ?_⟩
      intro pre t' e' hl
      cases pre with
      | nil => simp at e'; rw [← e']; exact hm
      | cons b pre =>
        simp at e' hl
        exact hmin pre t' e'.2 hl

theorem search_of_leftmost (r : Re) (pre t : Str) (x : Caps × Str) (hm : r.matchAt t = some x)
    (hmin : ∀ p t', pre ++ t = p ++ t' → p.length < pre.length → r.matchAt t' = none) :
    r.search (pre ++ t) = some (pre, x.1, x.2) := by
  induction pre with
  | nil =>
    cases t with
    | nil => simp [search, hm]
    | cons a t => simp [search, hm]
  | cons b pre ih =>
    have h0 : r.matchAt (b :: (pre ++ t)) = none := hmin [] _ rfl (by simp)
    have ih' := ih (fun p t' e hl => hmin (b :: p) t' (by simp [e]) (by simpa using hl))
    simp [search, h0, ih']

theorem search_none_of (r : Re) (s : Str) (h : ∀ pre t, s = pre ++ t → r.matchAt t = none) :
    r.search s = none := by
  induction s with
  | nil => simp [search, h [] [] rfl]
  | cons a s ih =>
    have h0 := h [] (a :: s) rfl
    have ih' := ih (fun pre t e => h (a :: pre) t (by simp [e]))
    simp [search, h0, ih']

/-! ### Literals and identifier runs -/

/-- Sequencing is associative for the matcher. -/
theorem run_seq_assoc (a b d : Re) (c : Caps) (s : Str) :
    (seq (seq a b) d).run c s = (seq a (seq b d)).run c s := by
  simp [run, List.flatMap_assoc]

theorem run_lit_seq (w : Str) (b : Re) (c : Caps) : ∀ s : Str,
    (seq (seqs (w.map fun a => cls fun x => x == a)) b).run c s =
      if w.isPrefixOf s then b.run c (s.drop w.length) else [] := by
  induction w with
  | nil => intro s; simp [seqs, run]
  | cons a w ih =>
    intro s
    simp only [List.map_cons, seqs]
    rw [run_seq_assoc]
    cases s with
    | nil => simp [run]
    | cons x s =>
      have := ih s
      simp only [run] at this ⊢
      by_cases hx : x = a
      · subst hx; simpa using this
      · have hx' : ¬ a = x := fun e => hx e.symm
        simp [hx, hx']

theorem starRuns_head (p : Char → Bool) (s : Str) : (starRuns p s).head? = some (s.dropWhile p) := by
  induction s with
  | nil => simp [starRuns]
  | cons c s ih =>
    by_cases h : p c
    · simp only [starRuns, h, if_true, List.dropWhile_cons_of_pos]
      cases hr : starRuns p s with
      | nil => simp [hr] at ih
      | cons a l => simpa [hr] using ih
    · simp [starRuns, h]

theorem idTail_head (p : Char → Bool) (i : Nat) (c : Caps) (s : Str) :
    ((seq (group i (plus p)) empty).run c s).head? =
      if s.takeWhile p = [] then none else some ((i, s.takeWhile p) :: c, s.dropWhile p) := by
  cases s with
  | nil => simp [run, plus]
  | cons a s =>
    by_cases h : p a
    · have hh := starRuns_head p s
      cases hr : starRuns p s with
      | nil => simp [hr] at hh
      | cons b l =>
        simp only [hr, List.head?_cons, Option.some.injEq] at hh
        have hl : (a :: s).length - b.length = (s.takeWhile p).length + 1 := by
          have := congrArg List.length (List.takeWhile_append_dropWhile p s)
          simp only [List.length_append, ← hh] at this
          simp only [List.length_cons]; omega
        have ht : List.take ((s.takeWhile p).length + 1) (a :: s) = a :: s.takeWhile p := by
          simp only [List.take_succ_cons]
          congr 1
          have e : ∀ x y : Str, List.take x.length (x ++ y) = x := fun x y => by simp
          have e' := e (s.takeWhile p) (s.dropWhile p)
          rwa [List.takeWhile_append_dropWhile] at e'
        subst hh
        have hne : List.takeWhile p (a :: s) ≠ [] := by simp [List.takeWhile, h]
        simp only [run, plus, h, hr, if_true, List.flatMap_cons, List.flatMap_nil,
          List.append_nil, List.map_cons, List.map_map, List.head?_cons, hne, if_false, hl, ht]
        simp [List.takeWhile, List.dropWhile, h]
    · simp [run, plus, h]

theorem run_seq_empty (a : Re) (c : Caps) (s : Str) : (seq a empty).run c s = a.run c s := by
  simp [run]

theorem matchAt_lit (w : Str) (s : Str) :
    (seqs (w.map fun a => cls fun x => x == a)).matchAt s =
      if w.isPrefixOf s then some ([], s.drop w.length) else none := by
  rw [matchAt, ← run_seq_empty, run_lit_seq]
  split <;> simp [run]

theorem matchAt_lit_idTail (w : Str) (s : Str) :
    (seq (seqs (w.map fun a => cls fun x => x == a)) (seq (group 1 (plus isIdChar)) empty)).matchAt s =
      if w.isPrefixOf s then
        (if (s.drop w.length).takeWhile isIdChar = [] then none
          else some ([(1, (s.drop w.length).takeWhile isIdChar)],
            (s.drop w.length).dropWhile isIdChar))
      else none := by
  rw [matchAt, run_lit_seq]
  split
  · rw [idTail_head]
  · rfl

theorem takeWhile_eq_nil_iff_head (p : Char → Bool) (s : Str) :
    s.takeWhile p = [] ↔ ∀ c t, s = c :: t → p c = false := by
  cases s with
  | nil => simp
  | cons a s =>
    by_cases h : p a <;> simp [List.takeWhile, h]

theorem isPrefixOf_iff (w s : Str) : w.isPrefixOf s = true ↔ ∃ t, s = w ++ t := by
  rw [List.isPrefixOf_iff_prefix]
  constructor
  · rintro ⟨t, rfl⟩; exact ⟨t, rfl⟩
  · rintro ⟨t, rfl⟩; exact ⟨t, rfl⟩

/-- No occurrence of the literal `w` followed by an identifier character. -/
theorem search_lit_idTail_none (w : Str) (s : Str)
    (h : ∀ p c t, s = p ++ w ++ c :: t → isIdChar c = false) :
    (seq (seqs (w.map fun a => cls fun x => x == a)) (seq (group 1 (plus isIdChar)) empty)).search s
      = none := by
  apply search_none_of
  intro pre t e
  rw [matchAt_lit_idTail]
  split
  · rename_i hw
    obtain ⟨u, rfl⟩ := (isPrefixOf_iff w t).1 hw
    have hd : (w ++ u).drop w.length = u := by simp
    have : u.takeWhile isIdChar = [] := by
      rw [takeWhile_eq_nil_iff_head]
      intro c t' e'
      subst e'
      exact h pre c t' (by simp [e])
    rw [hd, if_pos this]
  · rfl

theorem takeWhile_append_stop (p : Char → Bool) (a : Str) (c : Char) (t : Str)
    (ha : ∀ x ∈ a, p x = true) (hc : p c = false) :
    (a ++ c :: t).takeWhile p = a ∧ (a ++ c :: t).dropWhile p = c :: t := by
  induction a with
  | nil => simp [List.takeWhile, List.dropWhile, hc]
  | cons x a ih =>
    have hx := ha x (by simp)
    have := ih (fun y hy => ha y (by simp [hy]))
    simp [List.takeWhile, List.dropWhile, hx, this]

theorem search_lit_idTail_some (w pre ident : Str) (c : Char) (t : Str)
    (hne : ident ≠ []) (hid : ∀ x ∈ ident, isIdChar x = true) (hc : isIdChar c = false)
    (hfirst : ∀ p d u, pre ++ w ++ ident ++ c :: t = p ++ w ++ d :: u → isIdChar d = true →
      pre.length ≤ p.length) :
    (seq (seqs (w.map fun a => cls fun x => x == a)) (seq (group 1 (plus isIdChar)) empty)).search
      (pre ++ w ++ ident ++ c :: t) = some (pre, [(1, ident)], c :: t) := by
  have e : pre ++ w ++ ident ++ c :: t = pre ++ (w ++ (ident ++ c :: t)) := by simp
  rw [e]
  apply search_of_leftmost _ pre _ ([(1, ident)], c :: t)
  · rw [matchAt_lit_idTail]
    have hw : w.isPrefixOf (w ++ (ident ++ c :: t)) = true := (isPrefixOf_iff _ _).2 ⟨_, rfl⟩
    obtain ⟨h1, h2⟩ := takeWhile_append_stop isIdChar ident c t hid hc
    simp [hw, h1, h2, hne]
  · intro p t' e' hl
    rw [matchAt_lit_idTail]
    split
    · rename_i hw
      obtain ⟨u, rfl⟩ := (isPrefixOf_iff w t').1 hw
      have hd : (w ++ u).drop w.length = u := by simp
      have : u.takeWhile isIdChar = [] := by
        rw [takeWhile_eq_nil_iff_head]
        intro d t2 e2
        subst e2
        by_contra hd
        have := hfirst p d t2 (by rw [e, e']; simp) (by simpa using hd)
        omega
      rw [hd, if_pos this]
    · rfl

/-! ### The passes of the extractor -/

theorem allPatterns_minLen : ∀ r ∈ allPatterns, 0 < r.minLen := by
  decide

theorem pass_fuel (r : Re) (hr : 0 < r.minLen) (body : St → Caps → St) (fuel : Nat) (html : Str)
    (h : html.length < fuel) : pass r body fuel html = pass r body (html.length + 1) html := by
  funext st
  simp only [pass, execLoop_fuel r hr fuel (html.length + 1) html h (Nat.lt_succ_self _)]

theorem pass_isSome (r : Re) (hr : 0 < r.minLen) (body : St → Caps → St) (html : Str) (st : St) :
    ∃ st', pass r body (html.length + 1) html st = some st' := by
  obtain ⟨l, hl⟩ := execLoop_isSome r hr (html.length + 1) html (Nat.lt_succ_self _)
  exact ⟨l.foldl body st, by simp [pass, hl]⟩

theorem pass_no_match (r : Re) (body : St → Caps → St) (f : Nat) (html : Str) (st : St)
    (h : r.search html = none) : pass r body (f + 1) html st = some st := by
  simp [pass, execLoop, h]

theorem fresh_push (st : St) (k u n : Str) : (st.push k u n).Fresh := by
  intro h
  simp [St.push] at h

theorem fresh_foldl (body : St → Caps → St)
    (hb : ∀ st m, body st m = st ∨ ∃ k u n, body st m = st.push k u n) :
    ∀ (ms : List Caps) (st : St), st.Fresh → (ms.foldl body st).Fresh := by
  intro ms
  induction ms with
  | nil => intro st h; exact h
  | cons m ms ih =>
    intro st h
    simp only [List.foldl_cons]
    apply ih
    rcases hb st m with e | ⟨k, u, n, e⟩
    · rw [e]; exact h
    · rw [e]; exact fresh_push st k u n

theorem fresh_pass (r : Re) (body : St → Caps → St)
    (hb : ∀ st m, body st m = st ∨ ∃ k u n, body st m = st.push k u n)
    (f : Nat) (html : Str) (st st' : St) (h : pass r body f html st = some st')
    (hs : st.Fresh) : st'.Fresh := by
  simp only [pass, Option.map_eq_some'] at h
  obtain ⟨ms, _, rfl⟩ := h
  exact fresh_foldl body hb ms st hs

theorem namedStep_cases (st : St) (m : Caps) :
    namedStep st m = st ∨ ∃ k u n, namedStep st m = st.push k u n := by
  unfold namedStep
  simp only
  split
  · exact Or.inr ⟨_, _, _, rfl⟩
  · exact Or.inl rfl

theorem cdnStep_cases (st : St) (m : Caps) :
    cdnStep st m = st ∨ ∃ k u n, cdnStep st m = st.push k u n := by
  unfold cdnStep
  simp only
  split
  · exact Or.inr ⟨_, _, _, rfl⟩
  · exact Or.inl rfl

theorem downloadStep_cases (st : St) (m : Caps) :
    downloadStep st m = st ∨ ∃ k u n, downloadStep st m = st.push k u n := by
  unfold downloadStep
  simp only
  split
  · exact Or.inr ⟨_, _, _, rfl⟩
  · exact Or.inl rfl

theorem dataStep_cases (st : St) (m : Caps) :
    dataStep st m = st ∨ ∃ k u n, dataStep st m = st.push k u n := by
  unfold dataStep
  simp only
  split
  · exact Or.inr ⟨_, _, _, rfl⟩
  · exact Or.inl rfl

theorem jsonStep_cases (st : St) (m : Caps) :
    jsonStep st m = st ∨ ∃ k u n, jsonStep st m = st.push k u n := by
  unfold jsonStep
  simp only
  split_ifs
  all_goals first
    | exact Or.inl rfl
    | exact Or.inr ⟨_, _, _, rfl⟩

theorem listingStep_cases (st : St) (m : Caps) :
    listingStep st m = st ∨ ∃ k u n, listingStep st m = st.push k u n := by
  unfold listingStep
  simp only
  split_ifs
  all_goals first
    | exact Or.inl rfl
    | exact Or.inr ⟨_, _, _, rfl⟩

theorem fresh_jsonPasses (f : Nat) (html : Str) : ∀ (rs : List Re) (st st' : St),
    jsonPasses f html rs st = some st' → st.Fresh → st'.Fresh := by
  intro rs
  induction rs with
  | nil => intro st st' h hs; simp [jsonPasses] at h; subst h; exact hs
  | cons r rs ih =>
    intro st st' h hs
    simp only [jsonPasses, Option.bind_eq_some] at h
    obtain ⟨st1, h1, h2⟩ := h
    exact ih st1 st' h2 (fresh_pass r jsonStep jsonStep_cases f html st st1 h1 hs)

theorem fresh_mainPasses (f : Nat) (html : Str) (st : St) (h : mainPasses f html = some st) :
    st.Fresh := by
  simp only [mainPasses, Option.bind_eq_some] at h
  obtain ⟨s5, ⟨s4, ⟨s3, ⟨s2, ⟨s1, h1, h2⟩, h3⟩, h4⟩, h5⟩, s6, h6, h7⟩ := h
  have f0 : St.Fresh ⟨[], []⟩ := fun _ => rfl
  have f1 := fresh_pass _ _ namedStep_cases f html _ _ h1 f0
  have f2 := fresh_pass _ _ namedStep_cases f html _ _ h2 f1
  have f3 := fresh_pass _ _ cdnStep_cases f html _ _ h3 f2
  have f4 := fresh_pass _ _ downloadStep_cases f html _ _ h4 f3
  have f5 := fresh_pass _ _ dataStep_cases f html _ _ h5 f4
  have f6 := fresh_jsonPasses f html _ _ _ h6 f5
  exact fresh_pass _ _ listingStep_cases f html _ _ h7 f6

theorem mainPasses_fuel (fuel : Nat) (html : Str) (h : html.length < fuel) :
    mainPasses fuel html = mainPasses (html.length + 1) html := by
  simp only [mainPasses, jsonPasses, jsonPatterns,
    pass_fuel drivePattern (by decide) _ fuel html h,
    pass_fuel pdfPattern (by decide) _ fuel html h,
    pass_fuel cdnPattern (by decide) _ fuel html h,
    pass_fuel downloadPattern (by decide) _ fuel html h,
    pass_fuel dataPattern (by decide) _ fuel html h,
    pass_fuel jsonUrlPattern (by decide) _ fuel html h,
    pass_fuel jsonPdfPattern (by decide) _ fuel html h,
    pass_fuel jsonDownloadPattern (by decide) _ fuel html h,
    pass_fuel listingPattern (by decide) _ fuel html h]

theorem mainPasses_isSome (html : Str) : ∃ st, mainPasses (html.length + 1) html = some st := by
  obtain ⟨s1, h1⟩ := pass_isSome drivePattern (by decide) namedStep html ⟨[], []⟩
  obtain ⟨s2, h2⟩ := pass_isSome pdfPattern (by decide) namedStep html s1
  obtain ⟨s3, h3⟩ := pass_isSome cdnPattern (by decide) cdnStep html s2
  obtain ⟨s4, h4⟩ := pass_isSome downloadPattern (by decide) downloadStep html s3
  obtain ⟨s5, h5⟩ := pass_isSome dataPattern (by decide) dataStep html s4
  obtain ⟨s6, h6⟩ := pass_isSome jsonUrlPattern (by decide) jsonStep html s5
  obtain ⟨s7, h7⟩ := pass_isSome jsonPdfPattern (by decide) jsonStep html s6
  obtain ⟨s8, h8⟩ := pass_isSome jsonDownloadPattern (by decide) jsonStep html s7
  obtain ⟨s9, h9⟩ := pass_isSome listingPattern (by decide) listingStep html s8
  exact ⟨s9, by simp [mainPasses, jsonPasses, jsonPatterns, h1, h2, h3, h4, h5, h6, h7, h8, h9]⟩

theorem fallbackPass_fuel (fuel : Nat) (html : Str) (h : html.length < fuel) :
    fallbackPass fuel html = fallbackPass (html.length + 1) html := by
  funext st
  simp only [fallbackPass, pass_fuel anyLinkPattern (by decide) _ fuel html h]

theorem extract_fuel (fuel : Nat) (html : Str) (h : html.length < fuel) :
    extractPapersFromHTML fuel html = extractPapersFromHTML (html.length + 1) html := by
  simp only [extractPapersFromHTML, mainPasses_fuel fuel html h, fallbackPass_fuel fuel html h]

theorem mainPasses_no_match (html : Str) (h : ∀ r ∈ allPatterns, r.search html = none) :
    mainPasses (html.length + 1) html = some ⟨[], []⟩ := by
  have e : ∀ r ∈ allPatterns, ∀ body st, pass r body (html.length + 1) html st = some st :=
    fun r hr body st => pass_no_match r body _ html st (h r hr)
  simp only [mainPasses, jsonPasses, jsonPatterns,
    e drivePattern (by simp [allPatterns]), e pdfPattern (by simp [allPatterns]),
    e cdnPattern (by simp [allPatterns]), e downloadPattern (by simp [allPatterns]),
    e dataPattern (by simp [allPatterns]), e jsonUrlPattern (by simp [allPatterns, jsonPatterns]),
    e jsonPdfPattern (by simp [allPatterns, jsonPatterns]),
    e jsonDownloadPattern (by simp [allPatterns, jsonPatterns]),
    e listingPattern (by simp [allPatterns]), Option.some_bind]

/-- C8: on every input `extractPapersFromHTML` returns a list of records:
there is one list that it returns for every amount of fuel above the length of
the input, so every `exec` loop ends; a name derived from a URL falls back to
"JEE Paper" when `decodeURIComponent` fails. When no pattern of any pass
matches the input, that list is empty. -/
theorem extractPapersFromHTML_total (html : Str) :
    ∃ ps, (∀ fuel, html.length < fuel → extractPapersFromHTML fuel html = some ps) ∧
      ((∀ r ∈ allPatterns, r.search html = none) → ps = []) := by
  obtain ⟨st, hst⟩ := mainPasses_isSome html
  obtain ⟨fb, hfb⟩ := pass_isSome anyLinkPattern (by decide) fallbackStep html st
  refine ⟨if st.papers.length = 0 then fb.papers else st.papers, ?_, ?_⟩
  · intro fuel h
    rw [extract_fuel fuel html h]
    simp only [extractPapersFromHTML, hst, Option.some_bind, fallbackPass, hfb]
    split <;> simp
  · intro h
    have h1 := mainPasses_no_match html h
    rw [hst] at h1
    cases h1
    have h2 := pass_no_match anyLinkPattern fallbackStep html.length html ⟨[], []⟩
      (h _ (by simp [allPatterns]))
    rw [hfb] at h2
    cases h2
    simp

/-- C7: the last pass contributes only when patterns 1 to 7 produced nothing.
With `st` the state after patterns 1 to 7 and `fb` the state after the last
pass run from the empty state, the result is `st.papers` when that is not
empty and `fb.papers` otherwise. -/
theorem fallback_only_when_empty (html : Str) :
    ∃ st fb, ∀ fuel, html.length < fuel →
      mainPasses fuel html = some st ∧ fallbackPass fuel html ⟨[], []⟩ = some fb ∧
      extractPapersFromHTML fuel html =
        some (if st.papers = [] then fb.papers else st.papers) := by
  obtain ⟨st, hst⟩ := mainPasses_isSome html
  obtain ⟨fb, hfb⟩ := pass_isSome anyLinkPattern (by decide) fallbackStep html ⟨[], []⟩
  refine ⟨st, fb, fun fuel h => ⟨?_, ?_, ?_⟩⟩
  · rw [mainPasses_fuel fuel html h, hst]
  · rw [fallbackPass_fuel fuel html h]; exact hfb
  · rw [extract_fuel fuel html h]
    simp only [extractPapersFromHTML, hst, Option.some_bind]
    by_cases hp : st.papers = []
    · have hs := fresh_mainPasses _ html st hst hp
      have e : st = ⟨[], []⟩ := by
        cases st; simp_all
      subst e
      simp [fallbackPass, hfb]
    · have : st.papers.length ≠ 0 := by simpa using hp
      simp [hp, this]

/-! ### Patterns 1 to 7 keep the URLs distinct -/

theorem distinct_push (st : St) (u n : Str) (h : st.seenUrls.contains u = false)
    (hs : st.Distinct) : (st.push u u n).Distinct := by
  have hmem : u ∉ st.seenUrls := by simpa using h
  constructor
  · simp [St.push, hmem, hs.1, createPaperObject]
  · simp only [St.push, h, Bool.false_eq_true, if_false]
    exact List.nodup_append.2 ⟨hs.2, List.nodup_singleton u, by
      intro a ha hb
      have : a = u := by simpa using hb
      exact hmem (this ▸ ha)⟩

theorem distinct_foldl (body : St → Caps → St)
    (hb : ∀ st m, body st m = st ∨
      ∃ u n, st.seenUrls.contains u = false ∧ body st m = st.push u u n) :
    ∀ (ms : List Caps) (st : St), st.Distinct → (ms.foldl body st).Distinct := by
  intro ms
  induction ms with
  | nil => intro st h; exact h
  | cons m ms ih =>
    intro st h
    simp only [List.foldl_cons]
    apply ih
    rcases hb st m with e | ⟨u, n, hu, e⟩
    · rw [e]; exact h
    · rw [e]; exact distinct_push st u n hu h

theorem distinct_pass (r : Re) (body : St → Caps → St)
    (hb : ∀ st m, body st m = st ∨
      ∃ u n, st.seenUrls.contains u = false ∧ body st m = st.push u u n)
    (f : Nat) (html : Str) (st st' : St) (h : pass r body f html st = some st')
    (hs : st.Distinct) : st'.Distinct := by
  simp only [pass, Option.map_eq_some'] at h
  obtain ⟨ms, _, rfl⟩ := h
  exact distinct_foldl body hb ms st hs

theorem namedStep_guard (st : St) (m : Caps) : namedStep st m = st ∨
    ∃ u n, st.seenUrls.contains u = false ∧ namedStep st m = st.push u u n := by
  unfold namedStep
  simp only
  split
  · rename_i h
    simp only [Bool.and_eq_true, Bool.not_eq_true'] at h
    exact Or.inr ⟨_, _, h.1, rfl⟩
  · exact Or.inl rfl

theorem cdnStep_guard (st : St) (m : Caps) : cdnStep st m = st ∨
    ∃ u n, st.seenUrls.contains u = false ∧ cdnStep st m = st.push u u n := by
  unfold cdnStep
  simp only
  split
  · rename_i h
    simp only [Bool.not_eq_true'] at h
    exact Or.inr ⟨_, _, h, rfl⟩
  · exact Or.inl rfl

theorem downloadStep_guard (st : St) (m : Caps) : downloadStep st m = st ∨
    ∃ u n, st.seenUrls.contains u = false ∧ downloadStep st m = st.push u u n := by
  unfold downloadStep
  simp only
  split
  · rename_i h
    simp only [Bool.and_eq_true, Bool.not_eq_true'] at h
    exact Or.inr ⟨_, _, h.1, rfl⟩
  · exact Or.inl rfl

theorem dataStep_guard (st : St) (m : Caps) : dataStep st m = st ∨
    ∃ u n, st.seenUrls.contains u = false ∧ dataStep st m = st.push u u n := by
  unfold dataStep
  simp only
  split
  · rename_i h
    simp only [Bool.not_eq_true'] at h
    exact Or.inr ⟨_, _, h, rfl⟩
  · exact Or.inl rfl

theorem jsonStep_guard (st : St) (m : Caps) : jsonStep st m = st ∨
    ∃ u n, st.seenUrls.contains u = false ∧ jsonStep st m = st.push u u n := by
  unfold jsonStep
  simp only
  split_ifs with h1 h2 h3
  · exact Or.inr ⟨_, _, by simpa using h2, rfl⟩
  · exact Or.inl rfl
  · exact Or.inr ⟨_, _, by simpa using h3, rfl⟩
  · exact Or.inl rfl

theorem listingStep_guard (st : St) (m : Caps) : listingStep st m = st ∨
    ∃ u n, st.seenUrls.contains u = false ∧ listingStep st m = st.push u u n := by
  unfold listingStep
  simp only
  split_ifs with h1 h2 h3
  · simp only [Bool.and_eq_true, Bool.not_eq_true'] at h2
    exact Or.inr ⟨_, _, h2.1.1, rfl⟩
  · exact Or.inl rfl
  · simp only [Bool.and_eq_true, Bool.not_eq_true'] at h3
    exact Or.inr ⟨_, _, h3.1.1, rfl⟩
  · exact Or.inl rfl

theorem distinct_jsonPasses (f : Nat) (html : Str) : ∀ (rs : List Re) (st st' : St),
    jsonPasses f html rs st = some st' → st.Distinct → st'.Distinct := by
  intro rs
  induction rs with
  | nil => intro st st' h hs; simp [jsonPasses] at h; subst h; exact hs
  | cons r rs ih =>
    intro st st' h hs
    simp only [jsonPasses, Option.bind_eq_some] at h
    obtain ⟨st1, h1, h2⟩ := h
    exact ih st1 st' h2 (distinct_pass r jsonStep jsonStep_guard f html st st1 h1 hs)

/-- Patterns 1 to 7 never record the same URL twice. -/
theorem mainPasses_nodup (f : Nat) (html : Str) (st : St) (h : mainPasses f html = some st) :
    (st.papers.map Paper.url).Nodup := by
  simp only [mainPasses, Option.bind_eq_some] at h
  obtain ⟨s5, ⟨s4, ⟨s3, ⟨s2, ⟨s1, h1, h2⟩, h3⟩, h4⟩, h5⟩, s6, h6, h7⟩ := h
  have f0 : St.Distinct ⟨[], []⟩ := ⟨rfl, List.nodup_nil⟩
  have f1 := distinct_pass _ _ namedStep_guard f html _ _ h1 f0
  have f2 := distinct_pass _ _ namedStep_guard f html _ _ h2 f1
  have f3 := distinct_pass _ _ cdnStep_guard f html _ _ h3 f2
  have f4 := distinct_pass _ _ downloadStep_guard f html _ _ h4 f3
  have f5 := distinct_pass _ _ dataStep_guard f html _ _ h5 f4
  have f6 := distinct_jsonPasses f html _ _ _ h6 f5
  have f7 := distinct_pass _ _ listingStep_guard f html _ _ h7 f6
  rw [f7.1]; exact f7.2

/-- The records of patterns 1 to 7 have pairwise distinct URLs, and they are
the result whenever there is at least one of them. -/
theorem main_records_distinct (html : Str) :
    ∃ st, (∀ fuel, html.length < fuel → mainPasses fuel html = some st) ∧
      (st.papers.map Paper.url).Nodup ∧
      (st.papers ≠ [] → ∀ fuel, html.length < fuel →
        extractPapersFromHTML fuel html = some st.papers) := by
  obtain ⟨st, hst⟩ := mainPasses_isSome html
  refine ⟨st, fun fuel h => by rw [mainPasses_fuel fuel html h, hst],
    mainPasses_nodup _ html st hst, fun hp fuel h => ?_⟩
  have hl : st.papers.length ≠ 0 := by simpa using hp
  rw [extract_fuel fuel html h]
  simp only [extractPapersFromHTML, hst, Option.some_bind, hl, if_false]

/-! ### Year inference -/

theorem char_le_iff (a b : Char) : a ≤ b ↔ a.toNat ≤ b.toNat := by
  show a.val ≤ b.val ↔ _
  rw [UInt32.le_def]; rfl

theorem char_eq_of_toNat (a : Char) (n : Nat) (h : a.toNat = n) : a = Char.ofNat n := by
  rw [← h, Char.ofNat_toNat]

theorem range12 (c : Char) : ('1' ≤ c ∧ c ≤ '2') ↔ (c = '1' ∨ c = '2') := by
  constructor
  · rintro ⟨h1, h2⟩
    rw [char_le_iff] at h1 h2
    have h1' : 49 ≤ c.toNat := h1
    have h2' : c.toNat ≤ 50 := h2
    have : c.toNat = 49 ∨ c.toNat = 50 := by omega
    rcases this with h | h
    · exact Or.inl (char_eq_of_toNat c 49 h)
    · exact Or.inr (char_eq_of_toNat c 50 h)
  · rintro (rfl | rfl) <;> decide

theorem isYearText_iff (y : Str) : isYearText y = true ↔
    ∃ c d, y = ['2', '0', c, d] ∧ (c = '1' ∨ c = '2') ∧ '0' ≤ d ∧ d ≤ '9' := by
  constructor
  · intro h
    match y, h with
    | [a, b, c, d], h =>
      simp only [isYearText, Bool.and_eq_true, beq_iff_eq, Bool.or_eq_true, decide_eq_true_eq] at h
      obtain ⟨⟨⟨rfl, rfl⟩, hc⟩, hd⟩ := h
      exact ⟨c, d, rfl, hc, hd⟩
  · rintro ⟨c, d, rfl, hc, hd⟩
    simp [isYearText, hc, hd]

theorem isYearText_mem (y : Str) (h : isYearText y = true) : y ∈ yearTexts := by
  obtain ⟨c, d, rfl, hc, h1, h2⟩ := (isYearText_iff y).1 h
  rw [char_le_iff] at h1 h2
  have h1' : 48 ≤ d.toNat := h1
  have h2' : d.toNat ≤ 57 := h2
  have hd : d = Char.ofNat d.toNat := (Char.ofNat_toNat d).symm
  rw [hd]
  rcases hc with rfl | rfl <;> interval_cases d.toNat <;> decide

theorem isYearText_length (y : Str) (h : isYearText y = true) : y.length = 4 := by
  obtain ⟨c, d, rfl, _⟩ := (isYearText_iff y).1 h
  rfl

theorem run_cls2 (p q : Char → Bool) (c : Caps) (s : Str) :
    (seqs [cls p, cls q]).run c s =
      match s with
      | a :: b :: t => if p a && q b then [(c, t)] else []
      | _ => [] := by
  match s with
  | [] => simp [seqs, run]
  | [a] => by_cases h : p a <;> simp [seqs, run, h]
  | a :: b :: t => by_cases h : p a <;> by_cases h' : q b <;> simp [seqs, run, h, h']

theorem matchAt_year (t : Str) :
    yearPattern.matchAt t =
      if isYearText (t.take 4) then some ([(0, t.take 4)], t.drop 4) else none := by
  have e : yearPattern = group 0 (seq (seqs (['2', '0'].map fun a => cls fun x => x == a))
      (seqs [cls (fun c => '1' ≤ c && c ≤ '2'), cls (fun c => '0' ≤ c && c ≤ '9')])) := rfl
  have e2 : ∀ c : Caps, (group 0 (seq (seqs (['2', '0'].map fun a => cls fun x => x == a))
      (seqs [cls (fun c => '1' ≤ c && c ≤ '2'), cls (fun c => '0' ≤ c && c ≤ '9')]))).run c t =
      ((seq (seqs (['2', '0'].map fun a => cls fun x => x == a))
      (seqs [cls (fun c => '1' ≤ c && c ≤ '2'), cls (fun c => '0' ≤ c && c ≤ '9')])).run c t).map
        fun x => ((0, t.take (t.length - x.2.length)) :: x.1, x.2) := fun c => rfl
  rw [e, matchAt, e2, run_lit_seq, run_cls2]
  clear e e2
  match t with
  | [] => simp [isYearText]
  | [a] => simp [isYearText]
  | [a, b] => simp [isYearText]
  | [a, b, c] => simp [isYearText]
  | a :: b :: c :: d :: t =>
    have r : (decide ('1' ≤ c) && decide (c ≤ '2')) = (c == '1' || c == '2') := by
      rw [Bool.eq_iff_iff]; simpa using range12 c
    have ht : t.length + 1 + 1 + 1 + 1 - t.length = 4 := by omega
    have e1 : ('2' == a) = (a == '2') := by
      rw [Bool.eq_iff_iff, beq_iff_eq, beq_iff_eq]; exact eq_comm
    have e2 : ('0' == b) = (b == '0') := by
      rw [Bool.eq_iff_iff, beq_iff_eq, beq_iff_eq]; exact eq_comm
    simp only [List.isPrefixOf, e1, e2, r, isYearText, List.take, List.drop, List.length_cons]
    cases h1 : (a == '2') <;> cases h2 : (b == '0') <;> cases h3 : (c == '1' || c == '2') <;>
      cases h4 : (decide ('0' ≤ d) && decide (d ≤ '9')) <;> simp [ht]

theorem extractYear_cases (s : Str) :
    (extractYear s = none ∧ HasNoYear s) ∨ ∃ y, extractYear s = some y ∧ LeftmostYearIn s y := by
  cases hs : yearPattern.search s with
  | none =>
    left
    constructor
    · simp [extractYear, hs]
    · intro pre y post e
      by_contra hy
      have hy' : isYearText y = true := by simpa using hy
      have hl := isYearText_length y hy'
      have hm := search_none yearPattern s hs pre (y ++ post) (by simp [e])
      rw [matchAt_year] at hm
      have : (y ++ post).take 4 = y := by rw [← hl]; simp
      simp [this, hy'] at hm
  | some x =>
    right
    obtain ⟨t, e, hm, hmin⟩ := search_some yearPattern s x hs
    rw [matchAt_year] at hm
    by_cases hy : isYearText (t.take 4) = true
    · simp only [hy, if_true, Option.some.injEq, Prod.mk.injEq] at hm
      have hl := isYearText_length _ hy
      have hne : s.isEmpty = false := by
        cases s with
        | nil =>
          have : t = [] := by
            have := congrArg List.length e
            simp only [List.length_nil, List.length_append] at this
            exact List.eq_nil_of_length_eq_zero (by omega)
          simp [this] at hl
        | cons a s => rfl
      refine ⟨t.take 4, ?_, x.1, t.drop 4, ?_, hy, ?_⟩
      · simp [extractYear, hne, hs, ← hm.1, cap]
      · simp [e]
      · intro pre' y' post' e' hy'
        by_contra hlt
        have hm' := hmin pre' (y' ++ post') (by simp [e']) (by omega)
        rw [matchAt_year] at hm'
        have hl' := isYearText_length y' hy'
        have : (y' ++ post').take 4 = y' := by rw [← hl']; simp
        simp [this, hy'] at hm'
    · simp [hy] at hm

/-- C6: the year of a record is the leftmost substring of the name matching
`20[1-2][0-9]`; if the name has none, the leftmost one of the URL; if neither
has one, "Other". So it is "Other" or one of "2010" to "2029". -/
theorem createPaperObject_year (url name : Str) :
    (LeftmostYearIn name (createPaperObject url name).year ∨
      (HasNoYear name ∧ LeftmostYearIn url (createPaperObject url name).year) ∨
      (HasNoYear name ∧ HasNoYear url ∧ (createPaperObject url name).year = "Other".toList)) ∧
    ((createPaperObject url name).year = "Other".toList ∨
      (createPaperObject url name).year ∈ yearTexts) := by
  have key : ∀ y s, LeftmostYearIn s y → ∃ c t, y = c :: t ∧ y ∈ yearTexts := by
    rintro y s ⟨pre, post, _, hy, _⟩
    have hl := isYearText_length y hy
    cases y with
    | nil => simp at hl
    | cons c t => exact ⟨c, t, rfl, isYearText_mem _ hy⟩
  rcases extractYear_cases name with ⟨h1, n1⟩ | ⟨y, h1, l1⟩
  · rcases extractYear_cases url with ⟨h2, n2⟩ | ⟨y, h2, l2⟩
    · have e : (createPaperObject url name).year = "Other".toList := by
        simp [createPaperObject, h1, h2, orElse]
      rw [e]
      exact ⟨Or.inr (Or.inr ⟨n1, n2, rfl⟩), Or.inl rfl⟩
    · obtain ⟨c, t, rfl, hmem⟩ := key y url l2
      have e : (createPaperObject url name).year = c :: t := by
        simp [createPaperObject, h1, h2, orElse]
      rw [e]
      exact ⟨Or.inr (Or.inl ⟨n1, l2⟩), Or.inr hmem⟩
  · obtain ⟨c, t, rfl, hmem⟩ := key y name l1
    have e : (createPaperObject url name).year = c :: t := by
      simp [createPaperObject, h1, orElse]
    rw [e]
    exact ⟨Or.inl l1, Or.inr hmem⟩

/-! ### Direct-download links -/

theorem fileIdPattern_eq : fileIdPattern =
    seq (seqs ("/file/d/".toList.map fun a => cls fun x => x == a))
      (seq (group 1 (plus isIdChar)) empty) := rfl

theorem openIdPattern_eq : openIdPattern =
    seq (seqs ("/open?id=".toList.map fun a => cls fun x => x == a))
      (seq (group 1 (plus isIdChar)) empty) := rfl

theorem idParamPattern_eq : idParamPattern =
    seq (cls fun c => c == '?' || c == '&')
      (seq (seqs ("id=".toList.map fun a => cls fun x => x == a))
        (seq (group 1 (plus isIdChar)) empty)) := rfl

theorem matchAt_cls_seq (p : Char → Bool) (b : Re) (s : Str) :
    (seq (cls p) b).matchAt s =
      match s with
      | [] => none
      | a :: t => if p a then b.matchAt t else none := by
  cases s with
  | nil => simp [matchAt, run]
  | cons a t => by_cases h : p a <;> simp [matchAt, run, h]

theorem search_idParam_none (s : Str)
    (h : ∀ p q c t, s = p ++ q :: "id=".toList ++ c :: t → (q = '?' ∨ q = '&') →
      isIdChar c = false) : idParamPattern.search s = none := by
  apply search_none_of
  intro pre t e
  rw [idParamPattern_eq, matchAt_cls_seq]
  cases t with
  | nil => rfl
  | cons q t =>
    simp only
    split
    · rename_i hq
      rw [matchAt_lit_idTail]
      split
      · rename_i hw
        obtain ⟨u, rfl⟩ := (isPrefixOf_iff _ t).1 hw
        have hd : ("id=".toList ++ u).drop "id=".toList.length = u := by simp
        have : u.takeWhile isIdChar = [] := by
          rw [takeWhile_eq_nil_iff_head]
          intro c t' e'
          subst e'
          exact h pre q c t' (by simp [e]) (by simpa using hq)
        rw [hd, if_pos this]
      · rfl
    · rfl

/-- C4, amended: a Drive URL in which none of the shapes `/file/d/<ID>`,
`?id=<ID>` or `&id=<ID>`, `/open?id=<ID>` occurs, and which contains none of
"dropbox.com", "1drv.ms" and "onedrive", is returned unchanged. -/
theorem convert_drive_without_id (url : Str)
    (hdrive : includes url "drive.google.com".toList = true)
    (hfile : ∀ p c t, url = p ++ "/file/d/".toList ++ c :: t → isIdChar c = false)
    (hparam : ∀ p q c t, url = p ++ q :: "id=".toList ++ c :: t → (q = '?' ∨ q = '&') →
      isIdChar c = false)
    (hopen : ∀ p c t, url = p ++ "/open?id=".toList ++ c :: t → isIdChar c = false)
    (hdropbox : includes url "dropbox.com".toList = false)
    (h1drv : includes url "1drv.ms".toList = false)
    (honedrive : includes url "onedrive".toList = false) :
    convertToDirectDownload url = url := by
  have e1 : fileIdPattern.search url = none := by
    rw [fileIdPattern_eq]; exact search_lit_idTail_none _ url hfile
  have e2 : idParamPattern.search url = none := search_idParam_none url hparam
  have e3 : openIdPattern.search url = none := by
    rw [openIdPattern_eq]; exact search_lit_idTail_none _ url hopen
  simp only [convertToDirectDownload, hdrive, e1, e2, e3, hdropbox, h1drv, honedrive,
    if_true, Bool.or_self, Bool.false_eq_true, if_false]

/-- C3, amended: for a Drive URL `pre ++ "/file/d/" ++ ident ++ "/" ++ post`
where `ident` is a non-empty identifier, no `/file/d/` followed by an
identifier character starts further left, and no `?id=` or `&id=` followed by
an identifier character occurs, the result is the export-download URL of
`ident`. -/
theorem convert_drive_file_id (pre ident post : Str)
    (hdrive : includes (pre ++ "/file/d/".toList ++ ident ++ '/' :: post)
      "drive.google.com".toList = true)
    (hne : ident ≠ []) (hid : ∀ x ∈ ident, isIdChar x = true)
    (hfirst : ∀ p d u, pre ++ "/file/d/".toList ++ ident ++ '/' :: post =
      p ++ "/file/d/".toList ++ d :: u → isIdChar d = true → pre.length ≤ p.length)
    (hparam : ∀ p q c t, pre ++ "/file/d/".toList ++ ident ++ '/' :: post =
      p ++ q :: "id=".toList ++ c :: t → (q = '?' ∨ q = '&') → isIdChar c = false) :
    convertToDirectDownload (pre ++ "/file/d/".toList ++ ident ++ '/' :: post) =
      "https://drive.google.com/uc?export=download&id=".toList ++ ident := by
  have e1 : fileIdPattern.search (pre ++ "/file/d/".toList ++ ident ++ '/' :: post) =
      some (pre, [(1, ident)], '/' :: post) := by
    rw [fileIdPattern_eq]
    exact search_lit_idTail_some _ pre ident '/' post hne hid (by decide) hfirst
  have e2 := search_idParam_none _ hparam
  have e3 : openIdPattern.search (pre ++ "/file/d/".toList ++ ident ++ '/' :: post) = none := by
    rw [openIdPattern_eq]
    apply search_lit_idTail_none
    intro p c t e
    exact hparam (p ++ "/open".toList) '?' c t (by rw [e]; simp) (Or.inl rfl)
  cases ident with
  | nil => exact absurd rfl hne
  | cons a ident =>
    simp only [convertToDirectDownload, hdrive, e1, e2, e3, if_true, cap]
    simp

theorem search_lit_none (w s : Str) (h : ¬ w <:+: s) :
    (seqs (w.map fun a => cls fun x => x == a)).search s = none := by
  apply search_none_of
  intro pre t e
  rw [matchAt_lit]
  split
  · rename_i hw
    obtain ⟨u, rfl⟩ := (isPrefixOf_iff w t).1 hw
    exact absurd ⟨pre, u, by simp [e]⟩ h
  · rfl

theorem search_lit_first (w pre post : Str)
    (hfirst : ∀ p q, pre ++ w ++ post = p ++ w ++ q → pre.length ≤ p.length) :
    (seqs (w.map fun a => cls fun x => x == a)).search (pre ++ w ++ post) =
      some (pre, [], post) := by
  have e : pre ++ w ++ post = pre ++ (w ++ post) := by simp
  rw [e]
  apply search_of_leftmost _ pre _ ([], post)
  · rw [matchAt_lit]
    have hw : w.isPrefixOf (w ++ post) = true := (isPrefixOf_iff _ _).2 ⟨_, rfl⟩
    simp [hw]
  · intro p t' e' hl
    rw [matchAt_lit]
    split
    · rename_i hw
      obtain ⟨u, rfl⟩ := (isPrefixOf_iff w t').1 hw
      have := hfirst p u (by rw [e, e']; simp)
      omega
    · rfl

theorem replaceFirst_lit_none (w rep s : Str) (h : ¬ w <:+: s) :
    (seqs (w.map fun a => cls fun x => x == a)).replaceFirst rep s = s := by
  simp only [replaceFirst, search_lit_none w s h]

theorem replaceFirst_lit_first (w rep pre post : Str)
    (hfirst : ∀ p q, pre ++ w ++ post = p ++ w ++ q → pre.length ≤ p.length) :
    (seqs (w.map fun a => cls fun x => x == a)).replaceFirst rep (pre ++ w ++ post) =
      pre ++ rep ++ post := by
  simp only [replaceFirst, search_lit_first w pre post hfirst]

/-- Replacing the only `dl=0` of a text by `dl=1` leaves no `dl=0`. -/
theorem no_dl0_after (pre post : Str)
    (huniq : ∀ p q, pre ++ "dl=0".toList ++ post = p ++ "dl=0".toList ++ q → p = pre) :
    ¬ "dl=0".toList <:+: pre ++ "dl=1".toList ++ post := by
  rintro ⟨p, q, e⟩
  have e' : p ++ ("dl=0".toList ++ q) = pre ++ ("dl=1".toList ++ post) := by simpa using e
  rcases List.append_eq_append_iff.1 e' with ⟨a, ha, hb⟩ | ⟨c, hc, hd⟩
  · -- pre = p ++ a, "dl=0" ++ q = a ++ "dl=1" ++ post
    match a, ha, hb with
    | [], ha, hb => simp at hb
    | [_], ha, hb => simp at hb
    | [_, _], ha, hb => simp at hb
    | [_, _, _], ha, hb => simp at hb
    | a1 :: a2 :: a3 :: a4 :: z, ha, hb =>
      simp only [String.toList, List.cons_append, List.cons.injEq, List.nil_append] at hb
      obtain ⟨rfl, rfl, rfl, rfl, hq⟩ := hb
      have := huniq p (z ++ "dl=0".toList ++ post) (by rw [ha]; simp)
      rw [ha] at this
      have := congrArg List.length this
      simp at this
  · -- p = pre ++ c, "dl=1" ++ post = c ++ "dl=0" ++ q
    match c, hc, hd with
    | [], hc, hd => simp at hd
    | [_], hc, hd => simp at hd
    | [_, _], hc, hd => simp at hd
    | [_, _, _], hc, hd => simp at hd
    | c1 :: c2 :: c3 :: c4 :: z, hc, hd =>
      simp only [String.toList, List.cons_append, List.cons.injEq, List.nil_append] at hd
      obtain ⟨rfl, rfl, rfl, rfl, hq⟩ := hd
      have := huniq (pre ++ "dl=0".toList ++ z) q (by rw [hq]; simp)
      have := congrArg List.length this
      simp at this

/-- A Dropbox URL that is no Drive URL and in which `dl=0` occurs exactly
once: the result is the URL with that `dl=0` replaced by `dl=1`, and `dl=0` no
longer occurs in it. -/
theorem convert_dropbox_single (pre post : Str)
    (hdropbox : includes (pre ++ "dl=0".toList ++ post) "dropbox.com".toList = true)
    (hdrive : includes (pre ++ "dl=0".toList ++ post) "drive.google.com".toList = false)
    (huniq : ∀ p q, pre ++ "dl=0".toList ++ post = p ++ "dl=0".toList ++ q → p = pre) :
    convertToDirectDownload (pre ++ "dl=0".toList ++ post) = pre ++ "dl=1".toList ++ post ∧
      includes (convertToDirectDownload (pre ++ "dl=0".toList ++ post)) "dl=0".toList = false := by
  have h1 : (lit "dl=0").replaceFirst "dl=1".toList (pre ++ "dl=0".toList ++ post) =
      pre ++ "dl=1".toList ++ post :=
    replaceFirst_lit_first "dl=0".toList _ pre post (fun p q e => by rw [huniq p q e])
  have hno := no_dl0_after pre post huniq
  have h2 : (lit "?dl=0").replaceFirst "?dl=1".toList (pre ++ "dl=1".toList ++ post) =
      pre ++ "dl=1".toList ++ post := by
    apply replaceFirst_lit_none "?dl=0".toList
    rintro ⟨p, q, e⟩
    exact hno ⟨p ++ ['?'], q, by rw [← e]; simp⟩
  have e : convertToDirectDownload (pre ++ "dl=0".toList ++ post) =
      pre ++ "dl=1".toList ++ post := by
    simp only [convertToDirectDownload, hdrive, hdropbox, if_true, Bool.false_eq_true, if_false,
      h1, h2]
  refine ⟨e, ?_⟩
  rw [e]
  cases hi : includes (pre ++ "dl=1".toList ++ post) "dl=0".toList with
  | false => rfl
  | true => exact absurd ((includes_iff _ _).1 hi) hno

/-- C5, amended: when the URL contains none of "drive.google.com",
"dropbox.com", "1drv.ms" and "onedrive" anywhere (host, path or query), the
`directUrl` of the record is the URL itself. -/
theorem directUrl_unchanged (url name : Str)
    (hdrive : includes url "drive.google.com".toList = false)
    (hdropbox : includes url "dropbox.com".toList = false)
    (h1drv : includes url "1drv.ms".toList = false)
    (honedrive : includes url "onedrive".toList = false) :
    (createPaperObject url name).directUrl = url := by
  simp only [createPaperObject, convertToDirectDownload, hdrive, hdropbox, h1drv, honedrive,
    if_true, Bool.or_self, Bool.false_eq_true, if_false]

/-! ### The year filter and the year groups -/

theorem foldl_push_filter (c : Paper → Bool) (ps : List Paper) : ∀ init : List Paper,
    ps.foldl (fun papers paper => if c paper then papers ++ [paper] else papers) init =
      init ++ ps.filter c := by
  induction ps with
  | nil => intro init; simp
  | cons p ps ih =>
    intro init
    by_cases h : c p <;> simp [List.foldl_cons, ih, h, List.filter_cons]

/-- C9: with a filter string `f`, the filtering step keeps exactly the records
whose year is `f` or whose name contains `f`, in their order. -/
theorem filterPapers_spec (f : Str) (ps : List Paper) :
    filterPapers (some f) ps = ps.filter fun r => decide (r.year = f ∨ f <:+: r.name) := by
  cases f with
  | nil =>
    have e : ∀ init : List Paper, ps.foldl (fun papers paper => papers ++ [paper]) init
        = init ++ ps := by
      induction ps with
      | nil => intro init; simp
      | cons p ps ih => intro init; simp [ih]
    simp [filterPapers, e]
  | cons a f =>
    have := foldl_push_filter
      (fun paper => decide (paper.year = a :: f) || includes paper.name (a :: f)) ps []
    simp only [filterPapers, List.nil_append] at this ⊢
    rw [this]
    congr 1
    funext r
    rw [Bool.eq_iff_iff]
    simp [includes_iff]

/-- C2, the code at the failing input: for papers of 2024 and 2023, in that
order, `handleGetPapers` sends the group "2023" before the group "2024",
whatever the collation: array-index keys are enumerated in ascending order. -/
theorem sentYears_ascending (localeCompare : Str → Str → Int) :
    sentYears localeCompare twoYearPapers = some ["2023".toList, "2024".toList] := by
  have hg : twoYearPapers.foldl groupStep (some []) =
      some [("2024".toList, [createPaperObject "https://x.org/a.pdf".toList "JEE Main 2024".toList]),
        ("2023".toList, [createPaperObject "https://x.org/b.pdf".toList "JEE Main 2023".toList])] := by
    decide!
  have hk : Obj.keys [("2024".toList, [createPaperObject "https://x.org/a.pdf".toList "JEE Main 2024".toList]),
        ("2023".toList, [createPaperObject "https://x.org/b.pdf".toList "JEE Main 2023".toList])] =
      ["2023".toList, "2024".toList] := by decide!
  simp only [sentYears, groupByYear, hg, Option.map_some', hk, List.insertionSort,
    List.orderedInsert]
  split <;> decide!

/-- C1, the code at the failing input: on `dupHtml` the last pass returns two
records with the same URL, because it looks up and records the raw link but
stores the resolved one. -/
theorem fallback_duplicate_url :
    extractPapersFromHTML (dupHtml.length + 1) dupHtml =
      some [createPaperObject "https://www.mathongo.com/x".toList "paper".toList,
        createPaperObject "https://www.mathongo.com/x".toList "paper".toList] := by
  decide!

/-! ### Concrete inputs -/

theorem not_infix_of_includes (s w : Str) (h : includes s w = false) (p t : Str) :
    s ≠ p ++ w ++ t := by
  intro e
  have : includes s w = true := (includes_iff s w).2 ⟨p, t, e.symm⟩
  rw [h] at this
  exact Bool.false_ne_true this

theorem occurs_at (s p w t : Str) (e : s = p ++ w ++ t) :
    (s.drop p.length).take w.length = w ∧ s.take p.length = p := by
  subst e
  simp

/-- C3, counterexample: `driveBothUrl` is a Drive URL with the path segment
`/file/d/ABC/`, yet the result carries the id `XYZ` of its query. -/
theorem convert_drive_file_id_overridden :
    includes driveBothUrl "drive.google.com".toList = true ∧
    driveBothUrl = "https://drive.google.com".toList ++ "/file/d/".toList ++ "ABC".toList ++
      "/".toList ++ "view?usp=sharing&id=XYZ".toList ∧
    (∀ x ∈ "ABC".toList, isIdChar x = true) ∧
    convertToDirectDownload driveBothUrl =
      "https://drive.google.com/uc?export=download&id=XYZ".toList ∧
    convertToDirectDownload driveBothUrl ≠
      "https://drive.google.com/uc?export=download&id=ABC".toList := by
  decide!

/-- C4, counterexample: `driveFolderUrl` is a Drive URL without any of the id
shapes, yet its `dl=0` is rewritten to `dl=1` by the Dropbox rule. -/
theorem convert_drive_without_id_changed :
    includes driveFolderUrl "drive.google.com".toList = true ∧
    includes driveFolderUrl "/file/d/".toList = false ∧
    includes driveFolderUrl "?id=".toList = false ∧
    includes driveFolderUrl "&id=".toList = false ∧
    includes driveFolderUrl "/open?id=".toList = false ∧
    convertToDirectDownload driveFolderUrl =
      "https://drive.google.com/drive/folders/x?ref=dropbox.com&dl=1".toList ∧
    convertToDirectDownload driveFolderUrl ≠ driveFolderUrl := by
  decide!

/-- C5, counterexample: the host of `otherHostUrl` is "example.com", no
provider, yet the `directUrl` of its record differs from the URL. -/
theorem directUrl_changed_on_other_host :
    hostOf otherHostUrl = "example.com".toList ∧
    isProviderHost (hostOf otherHostUrl) = false ∧
    (createPaperObject otherHostUrl "Paper".toList).url = otherHostUrl ∧
    (createPaperObject otherHostUrl "Paper".toList).directUrl =
      "https://example.com/a?ref=dropbox.com&dl=1".toList ∧
    (createPaperObject otherHostUrl "Paper".toList).directUrl ≠ otherHostUrl := by
  decide!

/-- C10, counterexample: `dropboxTwiceUrl` is a Dropbox URL containing
`dl=0`, and its result still contains `dl=0`. -/
theorem convert_dropbox_keeps_second_flag :
    includes dropboxTwiceUrl "dropbox.com".toList = true ∧
    includes dropboxTwiceUrl "drive.google.com".toList = false ∧
    includes dropboxTwiceUrl "dl=0".toList = true ∧
    convertToDirectDownload dropboxTwiceUrl = "https://www.dropbox.com/s/a?x=dl=1&dl=0".toList ∧
    includes (convertToDirectDownload dropboxTwiceUrl) "dl=0".toList = true := by
  decide!

/-- C3, witness: a shared Drive link with a view suffix. -/
theorem convert_drive_file_id_witness :
    convertToDirectDownload ("https://drive.google.com".toList ++ "/file/d/".toList ++
        "1AbC_d-9".toList ++ '/' :: "view?usp=sharing".toList) =
      "https://drive.google.com/uc?export=download&id=".toList ++ "1AbC_d-9".toList :=
  convert_drive_file_id "https://drive.google.com".toList "1AbC_d-9".toList
    "view?usp=sharing".toList (by decide!) (by decide) (by decide)
    (by
      intro p d u e _
      by_contra hlt
      have h := (occurs_at _ p "/file/d/".toList (d :: u) e).1
      have hk : ∀ k, k < 24 → (List.drop k ("https://drive.google.com".toList ++
          "/file/d/".toList ++ "1AbC_d-9".toList ++ '/' :: "view?usp=sharing".toList)).take
          "/file/d/".toList.length ≠ "/file/d/".toList := by decide!
      exact hk p.length (by simpa using hlt) h)
    (by
      intro p q c t e _
      exact absurd e (by
        have := not_infix_of_includes _ "id=".toList
          (by decide! : includes ("https://drive.google.com".toList ++ "/file/d/".toList ++
            "1AbC_d-9".toList ++ '/' :: "view?usp=sharing".toList) "id=".toList = false)
          (p ++ [q]) (c :: t)
        simpa using this))

/-- C4, witness: a Drive folder link. -/
theorem convert_drive_without_id_witness :
    convertToDirectDownload "https://drive.google.com/drive/folders/1a2b3c".toList =
      "https://drive.google.com/drive/folders/1a2b3c".toList :=
  convert_drive_without_id "https://drive.google.com/drive/folders/1a2b3c".toList (by decide!)
    (fun p c t e => absurd e (not_infix_of_includes _ "/file/d/".toList (by decide!) p (c :: t)))
    (fun p q c t e _ => absurd e (by
      have := not_infix_of_includes "https://drive.google.com/drive/folders/1a2b3c".toList
        "id=".toList (by decide!) (p ++ [q]) (c :: t)
      simpa using this))
    (fun p c t e => absurd e (not_infix_of_includes _ "/open?id=".toList (by decide!) p (c :: t)))
    (by decide!) (by decide!) (by decide!)

/-- C5, witness: a PDF on the site's own CDN. -/
theorem directUrl_unchanged_witness :
    (createPaperObject "https://cdn.mathongo.com/jee-main-2021.pdf".toList
      "JEE Main 2021".toList).directUrl = "https://cdn.mathongo.com/jee-main-2021.pdf".toList :=
  directUrl_unchanged "https://cdn.mathongo.com/jee-main-2021.pdf".toList "JEE Main 2021".toList
    (by decide!) (by decide!) (by decide!) (by decide!)

/-- A Dropbox link ending in `?dl=0`, its only flag. -/
theorem convert_dropbox_single_witness :
    convertToDirectDownload ("https://www.dropbox.com/s/abc/paper.pdf?".toList ++ "dl=0".toList
        ++ []) = "https://www.dropbox.com/s/abc/paper.pdf?".toList ++ "dl=1".toList ++ [] ∧
      includes (convertToDirectDownload ("https://www.dropbox.com/s/abc/paper.pdf?".toList ++
        "dl=0".toList ++ [])) "dl=0".toList = false :=
  convert_dropbox_single "https://www.dropbox.com/s/abc/paper.pdf?".toList [] (by decide!)
    (by decide!)
    (by
      intro p q e
      have h := occurs_at _ p "dl=0".toList q e
      have hk : ∀ k, k < 45 → (List.drop k ("https://www.dropbox.com/s/abc/paper.pdf?".toList ++
          "dl=0".toList ++ [])).take "dl=0".toList.length = "dl=0".toList → k = 40 := by decide!
      have hlen : p.length < 45 := by
        have := congrArg List.length e
        simp at this
        omega
      have h40 := hk p.length hlen h.1
      rw [← h.2, h40]
      decide!)

/-! ### The record type -/

theorem lowerChar_cases (c : Char) :
    (∃ x, lowerChar c = [x]) ∨ lowerChar c = ['i', Char.ofNat 0x0307] := by
  unfold lowerChar
  split
  · exact Or.inl ⟨_, rfl⟩
  · split
    · exact Or.inr rfl
    · exact Or.inl ⟨_, rfl⟩

theorem toLowerCase_cons (c : Char) (s : Str) :
    toLowerCase (c :: s) = lowerChar c ++ toLowerCase s := by
  simp [toLowerCase]

theorem toLowerCase_append (a b : Str) :
    toLowerCase (a ++ b) = toLowerCase a ++ toLowerCase b := by
  simp [toLowerCase]

/-- A word at the start of a lowered text comes from the start of the text. -/
theorem prefix_toLowerCase (kw : Str) : ∀ s : Str,
    (∀ k ∈ kw, lowerChar k = [k] ∧ k ≠ Char.ofNat 0x0307) → kw.getLast? ≠ some 'i' →
    kw <+: toLowerCase s →
    ∃ w rest, s = w ++ rest ∧ List.Forall₂ (fun c k => sameIgnoringCase c k = true) w kw := by
  induction kw with
  | nil => intro s _ _ _; exact ⟨[], s, rfl, List.Forall₂.nil⟩
  | cons k ks ih =>
    intro s hk hlast hp
    cases s with
    | nil =>
      simp [toLowerCase] at hp
    | cons c s =>
      rw [toLowerCase_cons] at hp
      have hks : ∀ x ∈ ks, lowerChar x = [x] ∧ x ≠ Char.ofNat 0x0307 :=
        fun x hx => hk x (by simp [hx])
      have hlast' : ks.getLast? ≠ some 'i' := by
        cases ks with
        | nil => simp
        | cons a l => simpa [List.getLast?_cons_cons] using hlast
      rcases lowerChar_cases c with ⟨x, hx⟩ | hx
      · rw [hx] at hp
        simp only [List.singleton_append, List.cons_prefix_cons] at hp
        obtain ⟨w, rest, e, hw⟩ := ih s hks hlast' hp.2
        refine ⟨c :: w, rest, by simp [e], List.Forall₂.cons ?_ hw⟩
        have hk1 := (hk k (by simp)).1
        rw [hp.1] at hk1
        simp [sameIgnoringCase, hx, hk1, hp.1]
      · rw [hx] at hp
        simp only [List.cons_append, List.nil_append, List.cons_prefix_cons] at hp
        cases ks with
        | nil => exact absurd (by simp [hp.1]) hlast
        | cons a l =>
          have := hp.2
          simp only [List.cons_prefix_cons] at this
          exact absurd this.1 (hk a (by simp)).2

/-- A word inside a lowered text comes from a substring of the text. -/
theorem infix_toLowerCase (kw : Str) (hk : ∀ k ∈ kw, lowerChar k = [k] ∧ k ≠ Char.ofNat 0x0307)
    (hlast : kw.getLast? ≠ some 'i') (hne : kw ≠ []) : ∀ s : Str,
    kw <:+: toLowerCase s → ContainsIgnoringCase s kw := by
  intro s
  induction s with
  | nil =>
    intro h
    simp [toLowerCase] at h
    exact absurd h hne
  | cons c s ih =>
    intro h
    have step : kw <:+: toLowerCase s → ContainsIgnoringCase (c :: s) kw := by
      intro h'
      obtain ⟨pre, w, post, e, hw⟩ := ih h'
      exact ⟨c :: pre, w, post, by simp [e], hw⟩
    have start : kw <+: toLowerCase (c :: s) → ContainsIgnoringCase (c :: s) kw := by
      intro h'
      obtain ⟨w, rest, e, hw⟩ := prefix_toLowerCase kw (c :: s) hk hlast h'
      exact ⟨[], w, rest, by simp [e], hw⟩
    have h0 := h
    rw [toLowerCase_cons] at h
    rcases lowerChar_cases c with ⟨x, hx⟩ | hx
    · rw [hx, List.singleton_append, List.infix_cons_iff] at h
      rcases h with h | h
      · exact start (by rw [toLowerCase_cons, hx]; exact h)
      · exact step h
    · rw [hx] at h
      simp only [List.cons_append, List.nil_append, List.infix_cons_iff] at h
      rcases h with h | h | h
      · exact start (by rw [toLowerCase_cons, hx]; exact h)
      · cases kw with
        | nil => exact absurd rfl hne
        | cons a l =>
          simp only [List.cons_prefix_cons] at h
          exact absurd h.1 (hk a (by simp)).2
      · exact step h

/-- A substring that agrees with a lower-case word ignoring case lowers to it. -/
theorem toLowerCase_of_same (kw : Str) (hk : ∀ k ∈ kw, lowerChar k = [k]) : ∀ w : Str,
    List.Forall₂ (fun c k => sameIgnoringCase c k = true) w kw → toLowerCase w = kw := by
  intro w h
  induction h with
  | nil => rfl
  | @cons c k w ks hc _ ih =>
    have hk1 := hk k (by simp)
    have hc' : lowerChar c = [k] := by
      simp only [sameIgnoringCase, beq_iff_eq] at hc
      rw [hc, hk1]
    rw [toLowerCase_cons, hc', ih (fun x hx => hk x (by simp [hx]))]
    rfl

theorem toLowerCase_of_contains (kw s : Str) (hk : ∀ k ∈ kw, lowerChar k = [k])
    (h : ContainsIgnoringCase s kw) : kw <:+: toLowerCase s := by
  obtain ⟨pre, w, post, rfl, hw⟩ := h
  rw [toLowerCase_append, toLowerCase_append, toLowerCase_of_same kw hk w hw]
  exact ⟨_, _, rfl⟩

/-- A word without a blank inside `a ++ " " ++ b` lies in `a` or in `b`. -/
theorem infix_around_blank (kw a b : Str) (hb : ' ' ∉ kw) :
    kw <:+: a ++ ' ' :: b ↔ kw <:+: a ∨ kw <:+: b := by
  constructor
  · rintro ⟨p, q, e⟩
    have e' : p ++ (kw ++ q) = a ++ ' ' :: b := by simpa using e
    rcases List.append_eq_append_iff.1 e' with ⟨a', ha, hq⟩ | ⟨c', hp, hq⟩
    · -- a = p ++ a', kw ++ q = a' ++ ' ' :: b
      rcases List.append_eq_append_iff.1 hq with ⟨x, hx, hy⟩ | ⟨y, hx, hy⟩
      · -- a' = kw ++ x
        left
        exact ⟨p, x, by rw [ha, hx]; simp⟩
      · -- kw = a' ++ y, ' ' :: b = y ++ q
        cases y with
        | nil =>
          left
          exact ⟨p, [], by rw [ha, hx]; simp⟩
        | cons z y =>
          simp only [List.cons_append, List.cons.injEq] at hy
          exact absurd (by rw [hx, ← hy.1]; simp) hb
    · -- p = a ++ c', ' ' :: b = c' ++ (kw ++ q)
      cases c' with
      | nil =>
        simp only [List.nil_append] at hq
        cases kw with
        | nil => left; exact List.nil_infix
        | cons k ks =>
          simp only [List.cons_append, List.cons.injEq] at hq
          exact absurd (by rw [hq.1]; simp) hb
      | cons z c' =>
        simp only [List.cons_append, List.cons.injEq] at hq
        right
        exact ⟨c', q, by rw [hq.2]; simp⟩
  · rintro (⟨p, q, e⟩ | ⟨p, q, e⟩)
    · exact ⟨p, q ++ ' ' :: b, by rw [← e]; simp⟩
    · exact ⟨a ++ ' ' :: p, q, by rw [← e]; simp⟩

theorem solutionKeywords_plain : ∀ kw ∈ solutionKeywords, PlainWord kw := by
  unfold PlainWord
  decide

/-- The keyword test of `detectPaperType`, read on the name and on the URL. -/
theorem includes_lowered_iff (kw : Str) (hkw : PlainWord kw) (name url : Str) :
    includes (toLowerCase (name ++ " ".toList ++ url)) kw = true ↔
      ContainsIgnoringCase name kw ∨ ContainsIgnoringCase url kw := by
  obtain ⟨hall, hne, hlast⟩ := hkw
  have hk : ∀ k ∈ kw, lowerChar k = [k] ∧ k ≠ Char.ofNat 0x0307 :=
    fun k h => ⟨(hall k h).1, (hall k h).2.2⟩
  have hk' : ∀ k ∈ kw, lowerChar k = [k] := fun k h => (hall k h).1
  have hb : ' ' ∉ kw := fun h => (hall ' ' h).2.1 rfl
  have e : toLowerCase (name ++ " ".toList ++ url) =
      toLowerCase name ++ ' ' :: toLowerCase url := by
    rw [toLowerCase_append, toLowerCase_append]
    have : toLowerCase " ".toList = [' '] := by decide
    rw [this]; simp
  rw [includes_iff, e, infix_around_blank kw _ _ hb]
  constructor
  · rintro (h | h)
    · exact Or.inl (infix_toLowerCase kw hk hlast hne name h)
    · exact Or.inr (infix_toLowerCase kw hk hlast hne url h)
  · rintro (h | h)
    · exact Or.inl (toLowerCase_of_contains kw name hk' h)
    · exact Or.inr (toLowerCase_of_contains kw url hk' h)

/-- C11: the type of a record is "solution" exactly when the name or the URL
contains "solution", "answer" or "key" ignoring case, two characters being the
same ignoring case when their lower-case forms coincide; otherwise it is
"question". -/
theorem createPaperObject_type (url name : Str) :
    ((createPaperObject url name).type = "solution".toList ↔
      ∃ kw ∈ solutionKeywords, ContainsIgnoringCase name kw ∨ ContainsIgnoringCase url kw) ∧
    ((createPaperObject url name).type = "solution".toList ∨
      (createPaperObject url name).type = "question".toList) := by
  have h1 := includes_lowered_iff "solution".toList
    (solutionKeywords_plain _ (by simp [solutionKeywords])) name url
  have h2 := includes_lowered_iff "answer".toList
    (solutionKeywords_plain _ (by simp [solutionKeywords])) name url
  have h3 := includes_lowered_iff "key".toList
    (solutionKeywords_plain _ (by simp [solutionKeywords])) name url
  have ht : (createPaperObject url name).type = detectPaperType name url := rfl
  rw [ht]
  by_cases hc : (includes (toLowerCase (name ++ " ".toList ++ url)) "solution".toList ||
      includes (toLowerCase (name ++ " ".toList ++ url)) "answer".toList ||
      includes (toLowerCase (name ++ " ".toList ++ url)) "key".toList) = true
  · have e : detectPaperType name url = "solution".toList := by
      simp only [detectPaperType, hc, if_true]
    rw [e]
    refine ⟨⟨fun _ => ?_, fun _ => rfl⟩, Or.inl rfl⟩
    simp only [Bool.or_eq_true] at hc
    rcases hc with (hc | hc) | hc
    · exact ⟨_, by simp [solutionKeywords], h1.1 hc⟩
    · exact ⟨_, by simp [solutionKeywords], h2.1 hc⟩
    · exact ⟨_, by simp [solutionKeywords], h3.1 hc⟩
  · have e : detectPaperType name url = "question".toList := by
      simp only [detectPaperType, hc, Bool.false_eq_true, if_false]
    rw [e]
    refine ⟨⟨fun h => absurd h (by decide), ?_⟩, Or.inr rfl⟩
    rintro ⟨kw, hmem, hkw⟩
    exfalso
    apply hc
    simp only [solutionKeywords, List.map_cons, List.map_nil, List.mem_cons,
      List.mem_singleton, List.not_mem_nil, or_false] at hmem
    simp only [Bool.or_eq_true]
    rcases hmem with rfl | rfl | rfl
    · exact Or.inl (Or.inl (h1.2 hkw))
    · exact Or.inl (Or.inr (h2.2 hkw))
    · exact Or.inr (h3.2 hkw)

/-- C11, witness: a name in capitals marks a solution, a plain paper a question. -/
theorem createPaperObject_type_witness :
    (createPaperObject "https://x.org/a.pdf".toList "Answer KEY 2021".toList).type =
        "solution".toList ∧
      (createPaperObject "https://x.org/a.pdf".toList "JEE Main 2021 Paper".toList).type =
        "question".toList := by
  have h := createPaperObject_type "https://x.org/a.pdf".toList "Answer KEY 2021".toList
  exact ⟨h.1.2 ⟨"key".toList, by decide, Or.inl ⟨"Answer ".toList, "KEY".toList, " 2021".toList,
    by decide, by decide⟩⟩, by decide!⟩

/-! ### Dropbox links with several flags -/

/-- An occurrence of `dl=0` in `x ++ "dl=1" ++ y` lies in `x` or in `y`. -/
theorem split_dl0 (x y p q : Str)
    (e : x ++ "dl=1".toList ++ y = p ++ "dl=0".toList ++ q) :
    (∃ z, x = p ++ "dl=0".toList ++ z) ∨
      ∃ z, p = x ++ "dl=1".toList ++ z ∧ y = z ++ "dl=0".toList ++ q := by
  have e' : p ++ ("dl=0".toList ++ q) = x ++ ("dl=1".toList ++ y) := by simpa using e.symm
  rcases List.append_eq_append_iff.1 e' with ⟨a, ha, hb⟩ | ⟨c, hc, hd⟩
  · -- x = p ++ a, "dl=0" ++ q = a ++ "dl=1" ++ y
    match a, ha, hb with
    | [], ha, hb => simp at hb
    | [_], ha, hb => simp at hb
    | [_, _], ha, hb => simp at hb
    | [_, _, _], ha, hb => simp at hb
    | a1 :: a2 :: a3 :: a4 :: z, ha, hb =>
      simp only [String.toList, List.cons_append, List.cons.injEq, List.nil_append] at hb
      obtain ⟨rfl, rfl, rfl, rfl, _⟩ := hb
      exact Or.inl ⟨z, by rw [ha]; simp⟩
  · -- p = x ++ c, "dl=1" ++ y = c ++ "dl=0" ++ q
    match c, hc, hd with
    | [], hc, hd => simp at hd
    | [_], hc, hd => simp at hd
    | [_, _], hc, hd => simp at hd
    | [_, _, _], hc, hd => simp at hd
    | c1 :: c2 :: c3 :: c4 :: z, hc, hd =>
      simp only [String.toList, List.cons_append, List.cons.injEq, List.nil_append] at hd
      obtain ⟨rfl, rfl, rfl, rfl, hq⟩ := hd
      exact Or.inr ⟨z, by rw [hc]; simp, by rw [hq]; simp⟩

/-- An occurrence of `?dl=0` in `x ++ "dl=1" ++ y` lies in `x` or in `y`. -/
theorem split_qdl0 (x y p q : Str)
    (e : x ++ "dl=1".toList ++ y = p ++ "?dl=0".toList ++ q) :
    (∃ z, x = p ++ "?dl=0".toList ++ z) ∨
      ∃ z, p = x ++ "dl=1".toList ++ z ∧ y = z ++ "?dl=0".toList ++ q := by
  have e' : p ++ ("?dl=0".toList ++ q) = x ++ ("dl=1".toList ++ y) := by simpa using e.symm
  rcases List.append_eq_append_iff.1 e' with ⟨a, ha, hb⟩ | ⟨c, hc, hd⟩
  · match a, ha, hb with
    | [], ha, hb => simp at hb
    | [_], ha, hb => simp at hb
    | [_, _], ha, hb => simp at hb
    | [_, _, _], ha, hb => simp at hb
    | [_, _, _, _], ha, hb => simp at hb
    | a1 :: a2 :: a3 :: a4 :: a5 :: z, ha, hb =>
      simp only [String.toList, List.cons_append, List.cons.injEq, List.nil_append] at hb
      obtain ⟨rfl, rfl, rfl, rfl, rfl, _⟩ := hb
      exact Or.inl ⟨z, by rw [ha]; simp⟩
  · match c, hc, hd with
    | [], hc, hd => simp at hd
    | [_], hc, hd => simp at hd
    | [_, _], hc, hd => simp at hd
    | [_, _, _], hc, hd => simp at hd
    | c1 :: c2 :: c3 :: c4 :: z, hc, hd =>
      simp only [String.toList, List.cons_append, List.cons.injEq, List.nil_append] at hd
      obtain ⟨rfl, rfl, rfl, rfl, hq⟩ := hd
      exact Or.inr ⟨z, by rw [hc]; simp, by rw [hq]; simp⟩

theorem dl0_infix_iff (x y : Str) :
    "dl=0".toList <:+: x ++ "dl=1".toList ++ y ↔ "dl=0".toList <:+: x ∨ "dl=0".toList <:+: y := by
  constructor
  · rintro ⟨p, q, e⟩
    rcases split_dl0 x y p q e.symm with ⟨z, hz⟩ | ⟨z, _, hz⟩
    · exact Or.inl ⟨p, z, hz.symm⟩
    · exact Or.inr ⟨z, q, hz.symm⟩
  · rintro (⟨p, q, e⟩ | ⟨p, q, e⟩)
    · exact ⟨p, q ++ "dl=1".toList ++ y, by rw [← e]; simp⟩
    · exact ⟨x ++ "dl=1".toList ++ p, q, by rw [← e]; simp⟩

/-- A word without the character `c` inside `a ++ [c] ++ b` lies in `a` or in `b`. -/
theorem infix_around_char (c : Char) (kw a b : Str) (hb : c ∉ kw) :
    kw <:+: a ++ c :: b ↔ kw <:+: a ∨ kw <:+: b := by
  constructor
  · rintro ⟨p, q, e⟩
    have e' : p ++ (kw ++ q) = a ++ c :: b := by simpa using e
    rcases List.append_eq_append_iff.1 e' with ⟨a', ha, hq⟩ | ⟨c', hp, hq⟩
    · rcases List.append_eq_append_iff.1 hq with ⟨x, hx, hy⟩ | ⟨y, hx, hy⟩
      · left
        exact ⟨p, x, by rw [ha, hx]; simp⟩
      · cases y with
        | nil =>
          left
          exact ⟨p, [], by rw [ha, hx]; simp⟩
        | cons z y =>
          simp only [List.cons_append, List.cons.injEq] at hy
          exact absurd (by rw [hx, ← hy.1]; simp) hb
    · cases c' with
      | nil =>
        simp only [List.nil_append] at hq
        cases kw with
        | nil => left; exact List.nil_infix
        | cons k ks =>
          simp only [List.cons_append, List.cons.injEq] at hq
          exact absurd (by rw [hq.1]; simp) hb
      | cons z c' =>
        simp only [List.cons_append, List.cons.injEq] at hq
        right
        exact ⟨c', q, by rw [hq.2]; simp⟩
  · rintro (⟨p, q, e⟩ | ⟨p, q, e⟩)
    · exact ⟨p, q ++ c :: b, by rw [← e]; simp⟩
    · exact ⟨a ++ c :: p, q, by rw [← e]; simp⟩

/-- Nothing of `dl=0` starts before its first occurrence. -/
theorem not_infix_before_first (pre post : Str)
    (hfirst : ∀ p q, pre ++ "dl=0".toList ++ post = p ++ "dl=0".toList ++ q →
      pre.length ≤ p.length) : ¬ "dl=0".toList <:+: pre := by
  rintro ⟨a, b, e⟩
  have := hfirst a (b ++ "dl=0".toList ++ post) (by rw [← e]; simp)
  have hl := congrArg List.length e
  simp only [List.length_append] at hl
  have h4 : "dl=0".toList.length = 4 := rfl
  omega

/-- C10, amended: for a Dropbox URL that is no Drive URL, written as
`pre ++ "dl=0" ++ post` at its first `dl=0`, the result is the URL with that
`dl=0` replaced by `dl=1` and, when `?dl=0` occurs in `post`, the first such
`?dl=0` replaced by `?dl=1` as well. The result no longer carries `dl=0`
exactly when no further `dl=0` follows the first, or exactly one does and it
stands directly after a `?`. -/
theorem convert_dropbox_flags (pre post : Str)
    (hdropbox : includes (pre ++ "dl=0".toList ++ post) "dropbox.com".toList = true)
    (hdrive : includes (pre ++ "dl=0".toList ++ post) "drive.google.com".toList = false)
    (hfirst : ∀ p q, pre ++ "dl=0".toList ++ post = p ++ "dl=0".toList ++ q →
      pre.length ≤ p.length) :
    (¬ "?dl=0".toList <:+: post →
      convertToDirectDownload (pre ++ "dl=0".toList ++ post) = pre ++ "dl=1".toList ++ post ∧
      (includes (convertToDirectDownload (pre ++ "dl=0".toList ++ post)) "dl=0".toList = false ↔
        ¬ "dl=0".toList <:+: post)) ∧
    (∀ mid tail, post = mid ++ "?dl=0".toList ++ tail →
      (∀ p q, post = p ++ "?dl=0".toList ++ q → mid.length ≤ p.length) →
      convertToDirectDownload (pre ++ "dl=0".toList ++ post) =
        pre ++ "dl=1".toList ++ mid ++ "?dl=1".toList ++ tail ∧
      (includes (convertToDirectDownload (pre ++ "dl=0".toList ++ post)) "dl=0".toList = false ↔
        ¬ "dl=0".toList <:+: mid ∧ ¬ "dl=0".toList <:+: tail)) := by
  have hpre := not_infix_before_first pre post hfirst
  have h1 : (lit "dl=0").replaceFirst "dl=1".toList (pre ++ "dl=0".toList ++ post) =
      pre ++ "dl=1".toList ++ post :=
    replaceFirst_lit_first "dl=0".toList _ pre post hfirst
  have hconv : convertToDirectDownload (pre ++ "dl=0".toList ++ post) =
      (lit "?dl=0").replaceFirst "?dl=1".toList (pre ++ "dl=1".toList ++ post) := by
    simp only [convertToDirectDownload, hdrive, hdropbox, if_true, Bool.false_eq_true, if_false,
      h1]
  have hq_pre : ∀ p z, pre ≠ p ++ "?dl=0".toList ++ z := by
    intro p z e
    exact hpre ⟨p ++ ['?'], z, by rw [e]; simp⟩
  have hfalse : ∀ s : Str, includes s "dl=0".toList = false ↔ ¬ "dl=0".toList <:+: s := by
    intro s
    rw [← includes_iff]
    cases includes s "dl=0".toList <;> simp
  constructor
  · intro hq
    have h2 : (lit "?dl=0").replaceFirst "?dl=1".toList (pre ++ "dl=1".toList ++ post) =
        pre ++ "dl=1".toList ++ post := by
      apply replaceFirst_lit_none "?dl=0".toList
      rintro ⟨p, q, e⟩
      rcases split_qdl0 pre post p q e.symm with ⟨z, hz⟩ | ⟨z, _, hz⟩
      · exact hq_pre p z hz
      · exact hq ⟨z, q, hz.symm⟩
    rw [hconv, h2]
    refine ⟨rfl, ?_⟩
    rw [hfalse, dl0_infix_iff]
    exact ⟨fun h => fun hp => h (Or.inr hp), fun h => fun hp => hp.elim hpre h⟩
  · intro mid tail hpost hmid
    have e1 : pre ++ "dl=1".toList ++ post =
        (pre ++ "dl=1".toList ++ mid) ++ "?dl=0".toList ++ tail := by rw [hpost]; simp
    have h2 : (lit "?dl=0").replaceFirst "?dl=1".toList (pre ++ "dl=1".toList ++ post) =
        pre ++ "dl=1".toList ++ mid ++ "?dl=1".toList ++ tail := by
      rw [e1]
      apply replaceFirst_lit_first "?dl=0".toList
      intro p q e
      rw [← e1] at e
      rcases split_qdl0 pre post p q e with ⟨z, hz⟩ | ⟨z, hp, hz⟩
      · exact absurd hz (hq_pre p z)
      · have := hmid z q hz
        rw [hp]
        simp only [List.length_append]
        omega
    have e2 : pre ++ "dl=1".toList ++ mid ++ "?dl=1".toList ++ tail =
        (pre ++ "dl=1".toList ++ (mid ++ ['?'])) ++ "dl=1".toList ++ tail := by simp
    rw [hconv, h2]
    refine ⟨rfl, ?_⟩
    rw [hfalse, e2, dl0_infix_iff, dl0_infix_iff,
      infix_around_char '?' "dl=0".toList mid [] (by decide)]
    have hnil : ¬ "dl=0".toList <:+: ([] : Str) := by
      rintro ⟨p, q, e⟩
      have := congrArg List.length e
      simp at this
    constructor
    · intro h
      exact ⟨fun hm => h (Or.inl (Or.inr (Or.inl hm))), fun ht => h (Or.inr ht)⟩
    · rintro ⟨hm, ht⟩ ((hp | hm2 | hn) | ht2)
      · exact hpre hp
      · exact hm hm2
      · exact hnil hn
      · exact ht ht2

/-- C10, witness: a link with two flags, the second directly after a `?`. -/
theorem convert_dropbox_flags_witness :
    convertToDirectDownload ("https://www.dropbox.com/s/a?".toList ++ "dl=0".toList ++
        "&next=?dl=0".toList) = "https://www.dropbox.com/s/a?dl=1&next=?dl=1".toList ∧
      includes (convertToDirectDownload ("https://www.dropbox.com/s/a?".toList ++
        "dl=0".toList ++ "&next=?dl=0".toList)) "dl=0".toList = false := by
  have h := (convert_dropbox_flags "https://www.dropbox.com/s/a?".toList "&next=?dl=0".toList
    (by decide!) (by decide!)
    (by
      intro p q e
      by_contra hlt
      have h := (occurs_at _ p "dl=0".toList q e).1
      have hk : ∀ k, k < 28 → (List.drop k ("https://www.dropbox.com/s/a?".toList ++
          "dl=0".toList ++ "&next=?dl=0".toList)).take "dl=0".toList.length ≠
          "dl=0".toList := by decide!
      exact hk p.length (by simpa using hlt) h)).2 "&next=".toList [] (by decide)
    (by
      intro p q e
      by_contra hlt
      have h := (occurs_at _ p "?dl=0".toList q e).1
      have hk : ∀ k, k < 6 → (List.drop k "&next=?dl=0".toList).take "?dl=0".toList.length ≠
          "?dl=0".toList := by decide!
      exact hk p.length (by simpa using hlt) h)
  refine ⟨h.1, h.2.2 ⟨?_, ?_⟩⟩
  · rw [← includes_iff]; decide
  · rw [← includes_iff]; decide

end Pyq
